import Mathlib

/-!
# Formal model of the MySnippetHub backend core

A shallow embedding of the versioning + diff + rollback + import/export
subsystem of the MySnippetHub snippet manager: the SQLite schema and its
triggers (`db/schema.sql`), the snippet and tag routes
(`backend/src/routes/snippets.js`, `backend/src/routes/tags.js`) and the
export/import service (`backend/src/services/exportImport.js`).

Conventions of the embedding:
* SQL tables are Lean lists of row structures; `db.get` is `List.find?`
  (first row wins, as in SQLite scan order), `UPDATE ... WHERE` is a
  `List.map` over matching rows, `INSERT` appends.
* `AUTOINCREMENT` ids are modelled by explicit `next...Id` counters that
  never reuse ids; SQL timestamps are modelled by a logical clock
  (`created_at : Nat`), since no claim depends on wall-clock values.
  The `updated_at` column is not modelled (nothing reads it).
* JS `undefined`/`null` become `Option.none`; JS string falsiness
  (`undefined`, `null`, `""`) is `strTruthy`.
* Fallible routes return `Except ErrResp _` mirroring the HTTP status and
  error message they send.
-/

namespace MySnippetHub

/-- JS-style `trim()` (models the `trim` sanitizer of express-validator and
`String.prototype.trim` used in the export service): drop whitespace from
both ends. Implemented on the character list so it evaluates by `decide`. -/
def jsTrimChars (cs : List Char) : List Char :=
  ((cs.dropWhile Char.isWhitespace).reverse.dropWhile Char.isWhitespace).reverse

/-- JS `s.trim()`. -/
def jsTrim (s : String) : String := ⟨jsTrimChars s.data⟩

/-- Split a character list on a separator character; like JS
`String.prototype.split` with a one-character separator, the result is
never empty and `"".split(sep) == [""]`. -/
def splitOnChar (sep : Char) : List Char → List (List Char)
  | [] => [[]]
  | c :: cs =>
    match splitOnChar sep cs with
    | [] => [[c]]
    | h :: t => if c = sep then [] :: h :: t else (c :: h) :: t

/-- JS `s.split(sep)` for a one-character separator. -/
def jsSplit (sep : Char) (s : String) : List String :=
  (splitOnChar sep s.data).map (fun l => ⟨l⟩)

/-- Truthiness of an optional JS string: `undefined`/`null` and `""` are
falsy, everything else truthy. -/
def strTruthy : Option String → Bool
  | none => false
  | some s => s != ""

/-- JS `x || null` applied to an optional string: the empty string collapses
to `null`. -/
def jsOrNullStr : Option String → Option String
  | some "" => none
  | x => x

/-! ## JSON values (for `validateImportData`) -/

/-- A JSON-ish value as seen by the validation code. JS `undefined` and
`null` are conflated into `.null` (both are falsy non-strings, which is all
the validator inspects). -/
inductive JVal where
  | null
  | bool (b : Bool)
  | num (n : Int)
  | str (s : String)
  | arr (xs : List JVal)
  | obj (fields : List (String × JVal))

/-- JS truthiness of a `JVal`. -/
def JVal.truthy : JVal → Bool
  | .null => false
  | .bool b => b
  | .num n => n != 0
  | .str s => s != ""
  | .arr _ => true
  | .obj _ => true

/-- JS property access `v[k]`: absent keys (and access on non-objects)
yield `undefined`, modelled as `.null`. -/
def JVal.getField : JVal → String → JVal
  | .obj fields, k => ((fields.find? (fun p => p.1 == k)).map Prod.snd).getD .null
  | _, _ => .null

/-- `typeof v === 'string'`. -/
def JVal.isString : JVal → Bool
  | .str _ => true
  | _ => false

/-- `Array.isArray(v)`. -/
def JVal.isArray : JVal → Bool
  | .arr _ => true
  | _ => false

/-- `typeof v === 'object'` (true for objects, arrays and `null`). -/
def JVal.typeofObject : JVal → Bool
  | .obj _ => true
  | .arr _ => true
  | .null => true
  | _ => false

/-- Shallow JS template-literal rendering of a `JVal` (used only inside a
compatibility warning message; container values are not rendered
recursively since no claim exercises them). -/
def JVal.display : JVal → String
  | .null => "null"
  | .bool b => if b then "true" else "false"
  | .num n => toString n
  | .str s => s
  | .arr _ => ""
  | .obj _ => "[object Object]"

/-- `isVersionCompatible(version)`: the explicit allow-list
`['1.0.0', '1.1.0'].includes(version)`. -/
def isVersionCompatible (v : JVal) : Bool :=
  match v with
  | .str s => s == "1.0.0" || s == "1.1.0"
  | _ => false

/-- `validateSnippet(snippet, index)` from `services/exportImport.js`:
index-labelled per-snippet error messages (1-based labels). -/
def validateSnippet (snippet : JVal) (index : Nat) : List String :=
  let lbl := "Snippet " ++ toString (index + 1) ++ ": "
  (if !(snippet.getField "title").truthy || !(snippet.getField "title").isString then
    [lbl ++ "Missing or invalid title"] else [])
  ++ (if !(snippet.getField "content").truthy || !(snippet.getField "content").isString then
    [lbl ++ "Missing or invalid content"] else [])
  ++ (if (snippet.getField "language").truthy && !(snippet.getField "language").isString then
    [lbl ++ "Invalid language field"] else [])
  ++ (if (snippet.getField "tags").truthy && !(snippet.getField "tags").isArray then
    [lbl ++ "Invalid tags field (must be array)"] else [])

/-- `validation.stats`. -/
structure ValidationStats where
  totalSnippets : Nat
  validSnippets : Nat
  invalidSnippets : Nat
  deriving DecidableEq, Repr

/-- The structured report returned by `validateImportData`. -/
structure ValidationReport where
  valid : Bool
  errors : List String
  warnings : List String
  stats : ValidationStats
  deriving DecidableEq, Repr

/-- `validateImportData(data)` from `services/exportImport.js`. It never
throws: it is a total function into a structured report. -/
def validateImportData (data : JVal) : ValidationReport :=
  if !data.truthy || !data.typeofObject then
    ⟨false, ["Invalid file format: not a valid JSON object"], [], ⟨0, 0, 0⟩⟩
  else if !(data.getField "snippets").truthy || !(data.getField "snippets").isArray then
    ⟨false, ["Invalid file format: missing or invalid snippets array"], [], ⟨0, 0, 0⟩⟩
  else
    let snips := match data.getField "snippets" with
      | .arr xs => xs
      | _ => []
    let vv := data.getField "version"
    let warnings :=
      if vv.truthy && !isVersionCompatible vv then
        ["Export version " ++ vv.display ++ " may not be fully compatible"]
      else []
    let errLists := snips.enum.map (fun p => validateSnippet p.2 p.1)
    let errs := errLists.flatten
    ⟨errs.isEmpty, errs, warnings,
     ⟨snips.length, (errLists.filter List.isEmpty).length,
      (errLists.filter (fun l => !l.isEmpty)).length⟩⟩

/-! ## The record store (SQLite schema `db/schema.sql`) -/

/-- A row of the `snippets` table. `version INTEGER NOT NULL DEFAULT 1`;
`created_at` is the logical clock value at insertion. -/
structure Snippet where
  id : Nat
  title : String
  content : String
  language : String
  source : Option String
  version : Nat
  created_at : Nat
  deriving DecidableEq, Repr

/-- A row of the `versions` table: a frozen snapshot of a snippet's
editable fields plus the version number it superseded. -/
structure VersionRow where
  id : Nat
  snippet_id : Nat
  title : String
  content : String
  language : String
  source : Option String
  version_number : Nat
  deriving DecidableEq, Repr

/-- A row of the `tags` table (`color TEXT DEFAULT '#6B7280'`). -/
structure Tag where
  id : Nat
  name : String
  color : String
  deriving DecidableEq, Repr

/-- The whole store. `snippet_tags` rows are `(snippet_id, tag_id)` pairs,
`favorites` rows are snippet ids (both unique by schema constraint);
`clock` drives the logical `created_at` timestamps. -/
structure DB where
  snippets : List Snippet
  versions : List VersionRow
  tags : List Tag
  snippet_tags : List (Nat × Nat)
  favorites : List Nat
  nextSnippetId : Nat
  nextTagId : Nat
  nextVersionId : Nat
  clock : Nat
  deriving DecidableEq, Repr

/-- The empty store, as created by the schema before any insert. -/
def DB.empty : DB := ⟨[], [], [], [], [], 1, 1, 1, 0⟩

/-- `SELECT * FROM snippets WHERE id = ?` via `db.get`: first matching row. -/
def findSnippet (db : DB) (id : Nat) : Option Snippet :=
  db.snippets.find? (fun s => s.id == id)

/-- `SELECT * FROM versions WHERE snippet_id = ? AND version_number = ?`. -/
def findVersionRow (db : DB) (id vn : Nat) : Option VersionRow :=
  db.versions.find? (fun v => v.snippet_id == id && v.version_number == vn)

/-- `SELECT id FROM tags WHERE name = ?`. -/
def findTagByName (db : DB) (name : String) : Option Tag :=
  db.tags.find? (fun t => t.name == name)

/-- The `save_snippet_version` trigger (`db/schema.sql`): AFTER UPDATE ON
snippets, WHEN `OLD.content != NEW.content OR OLD.title != NEW.title`,
insert a snapshot of the OLD row (with the OLD version number) into
`versions` and bump the live row's `version` by 1. With SQLite's default
non-recursive triggers, the bump itself re-fires nothing. -/
def save_snippet_version (old newRow : Snippet) (db : DB) : DB :=
  if old.content ≠ newRow.content ∨ old.title ≠ newRow.title then
    let db := { db with
      versions := db.versions ++
        [(⟨db.nextVersionId, old.id, old.title, old.content, old.language, old.source,
          old.version⟩ : VersionRow)],
      nextVersionId := db.nextVersionId + 1 }
    { db with snippets :=
        db.snippets.map (fun r : Snippet =>
          if r.id = old.id then { r with version := r.version + 1 } else r) }
  else db

/-- `UPDATE snippets SET title = ?, content = ?, language = ?, source = ?
WHERE id = ?` followed by the AFTER UPDATE triggers. A missing id updates
nothing and fires nothing. -/
def updateSnippetFields (db : DB) (id : Nat) (t c l : String) (src : Option String) : DB :=
  match findSnippet db id with
  | none => db
  | some old =>
    let newRow := { old with title := t, content := c, language := l, source := src }
    let db := { db with snippets := db.snippets.map (fun r => if r.id = id then newRow else r) }
    save_snippet_version old newRow db

/-- `INSERT OR IGNORE INTO snippet_tags (snippet_id, tag_id) VALUES (?, ?)`.
A `none` snippet id binds NULL, violating NOT NULL, which OR IGNORE skips
silently; an existing pair violates UNIQUE and is likewise skipped. -/
def insertLinkOrIgnore (db : DB) (sid : Option Nat) (tid : Nat) : DB :=
  match sid with
  | none => db
  | some sid =>
    if (sid, tid) ∈ db.snippet_tags then db
    else { db with snippet_tags := db.snippet_tags ++ [(sid, tid)] }

/-- `DELETE FROM snippet_tags WHERE snippet_id = ?`; a `none` id binds NULL
and matches no row. -/
def deleteLinksFor (db : DB) (sid : Option Nat) : DB :=
  match sid with
  | none => db
  | some sid => { db with snippet_tags := db.snippet_tags.filter (fun l => l.1 != sid) }

/-- The body of the tag loop in `manageTags`: create the tag when missing
(default color, the fresh id being `result.id`), then link it. -/
def manageTagStep (snippetId : Nat) (db : DB) (name : String) : DB :=
  match findTagByName db name with
  | some t => insertLinkOrIgnore db (some snippetId) t.id
  | none =>
    let tid := db.nextTagId
    let db := { db with tags := db.tags ++ [⟨tid, name, "#6B7280"⟩], nextTagId := tid + 1 }
    insertLinkOrIgnore db (some snippetId) tid

/-- `manageTags(snippetId, tagNames)` from `routes/snippets.js`: skip unless
an array was given; clear the snippet's links, then for each name create the
tag if missing (default color) and link it. -/
def manageTags (db : DB) (snippetId : Nat) (tagNames : Option (List String)) : DB :=
  match tagNames with
  | none => db
  | some names => names.foldl (manageTagStep snippetId) (deleteLinksFor db (some snippetId))

/-- An HTTP error response: status code and `error` message. -/
structure ErrResp where
  status : Nat
  error : String
  deriving DecidableEq, Repr

/-- POST /api/snippets: express-validator requires non-empty title, content
and language (checked on the raw values, then `title`/`language`/`source`
are trimmed; `source || null` collapses the empty string). Inserts with
`version` defaulting to 1, then manages tags. Returns the new id. -/
def createSnippetRoute (db : DB) (title content language : String)
    (source : Option String) (tags : Option (List String)) : Except ErrResp (DB × Nat) :=
  if title = "" ∨ content = "" ∨ language = "" then
    .error ⟨400, "Validation failed"⟩
  else
    let src := jsOrNullStr (source.map jsTrim)
    let sid := db.nextSnippetId
    let db := { db with
      snippets := db.snippets ++ [⟨sid, jsTrim title, content, jsTrim language, src, 1, db.clock⟩],
      nextSnippetId := sid + 1,
      clock := db.clock + 1 }
    .ok (manageTags db sid tags, sid)

/-- PUT /api/snippets/:id: validate, 404 when the snippet is missing, then
the parameterized UPDATE (which fires the versioning trigger) and tag
management. -/
def updateSnippetRoute (db : DB) (id : Nat) (title content language : String)
    (source : Option String) (tags : Option (List String)) : Except ErrResp DB :=
  if title = "" ∨ content = "" ∨ language = "" then
    .error ⟨400, "Validation failed"⟩
  else
    match findSnippet db id with
    | none => .error ⟨404, "Snippet not found"⟩
    | some _ =>
      let src := jsOrNullStr (source.map jsTrim)
      let db := updateSnippetFields db id (jsTrim title) content (jsTrim language) src
      .ok (manageTags db id tags)

/-- The rows of `versions` belonging to one snippet, in table order. -/
def versionRowsFor (db : DB) (id : Nat) : List VersionRow :=
  db.versions.filter (fun v => v.snippet_id == id)

/-- Insertion step of the descending sort on `version_number`. -/
def insertDescByVN (v : VersionRow) : List VersionRow → List VersionRow
  | [] => [v]
  | w :: ws =>
    if w.version_number ≥ v.version_number then w :: insertDescByVN v ws
    else v :: w :: ws

/-- `ORDER BY version_number DESC` as an insertion sort. -/
def sortDescByVN (l : List VersionRow) : List VersionRow := l.foldr insertDescByVN []

/-- GET /api/snippets/:id/versions: `SELECT * FROM versions WHERE
snippet_id = ? ORDER BY version_number DESC` (an unknown snippet yields an
empty list, not an error). -/
def listVersions (db : DB) (id : Nat) : List VersionRow :=
  sortDescByVN (versionRowsFor db id)

/-- POST /api/snippets/:id/rollback: 404 when no snapshot has that
version number; otherwise a raw UPDATE of the live row with the snapshot's
title/content/language/source — which fires the versioning trigger. -/
def rollbackRoute (db : DB) (id vn : Nat) : Except ErrResp DB :=
  match findVersionRow db id vn with
  | none => .error ⟨404, "Version not found"⟩
  | some ver => .ok (updateSnippetFields db id ver.title ver.content ver.language ver.source)

/-- Outcome of DELETE /api/tags/:id: 404, the 400 conflict-style response
carrying the usage count, or deletion. -/
inductive DeleteTagOutcome where
  | notFound
  | inUse (usage_count : Nat)
  | deleted
  deriving DecidableEq, Repr

/-- DELETE /api/tags/:id from `routes/tags.js`: 404 if the tag does not
exist; if `COUNT(*) FROM snippet_tags WHERE tag_id = ?` is positive, fail
with the conflict response reporting that count and change nothing; else
delete the tag row. -/
def deleteTagRoute (db : DB) (tagId : Nat) : DB × DeleteTagOutcome :=
  match db.tags.find? (fun t => t.id == tagId) with
  | none => (db, .notFound)
  | some _ =>
    let cnt := (db.snippet_tags.filter (fun l => l.2 == tagId)).length
    if cnt > 0 then (db, .inUse cnt)
    else ({ db with tags := db.tags.filter (fun t => t.id != tagId) }, .deleted)

/-! ## Diff generation

The route calls `createTwoFilesPatch(oldFileName, newFileName, oldStr,
newStr, oldHeader, newHeader, {context: 3})` from the external `diff` npm
package. The package is modelled here as a line-based LCS unified diff:
`---`/`+++` header lines carrying the two labels, `@@` hunk ranges, and 3
lines of context, exactly as the spec describes the output format. (The
package's "\ No newline at end of file" markers and header tab-suffixes are
not modelled; no claim depends on them.) Fuel-based recursion keeps every
definition kernel-reducible. -/

/-- A line-level edit operation. -/
inductive DOp where
  | keep (line : String)
  | del (line : String)
  | ins (line : String)
  deriving DecidableEq, Repr

/-- Length of the longest common subsequence, with fuel. -/
def lcsLenF : Nat → List String → List String → Nat
  | _, [], _ => 0
  | _, _, [] => 0
  | 0, _, _ => 0
  | f + 1, x :: xs, y :: ys =>
    if x = y then lcsLenF f xs ys + 1
    else max (lcsLenF f xs (y :: ys)) (lcsLenF f (x :: xs) ys)

/-- An LCS edit script, with fuel (the fallback row is unreachable when the
fuel is at least the summed length). -/
def diffOpsF : Nat → List String → List String → List DOp
  | _, [], ys => ys.map .ins
  | _, xs, [] => xs.map .del
  | 0, xs, ys => xs.map .del ++ ys.map .ins
  | f + 1, x :: xs, y :: ys =>
    if x = y then .keep x :: diffOpsF f xs ys
    else if lcsLenF f xs (y :: ys) ≥ lcsLenF f (x :: xs) ys then
      .del x :: diffOpsF f xs (y :: ys)
    else .ins y :: diffOpsF f (x :: xs) ys

/-- The edit script between two line lists. -/
def diffOps (xs ys : List String) : List DOp := diffOpsF (xs.length + ys.length) xs ys

/-- Rendered patch line of an operation (`' '`, `'-'`, `'+'` markers). -/
def DOp.render : DOp → String
  | .keep s => " " ++ s
  | .del s => "-" ++ s
  | .ins s => "+" ++ s

/-- How many old-file lines an operation consumes. -/
def DOp.oldCount : DOp → Nat
  | .keep _ => 1
  | .del _ => 1
  | .ins _ => 0

/-- How many new-file lines an operation produces. -/
def DOp.newCount : DOp → Nat
  | .keep _ => 1
  | .ins _ => 1
  | .del _ => 0

/-- Whether an operation is a change (not context). -/
def DOp.changed : DOp → Bool
  | .keep _ => false
  | _ => true

/-- One `@@` hunk. -/
structure Hunk where
  oldStart : Nat
  oldLines : Nat
  newStart : Nat
  newLines : Nat
  lines : List String
  deriving DecidableEq, Repr

/-- Cluster the (sorted) indices of change operations into hunk runs: two
changes share a hunk when at most `2 * ctx` context lines separate them. -/
def groupChangeRuns (ctx first last : Nat) : List Nat → List (Nat × Nat)
  | [] => [(first, last)]
  | j :: js =>
    if j - last > 2 * ctx + 1 then (first, last) :: groupChangeRuns ctx j j js
    else groupChangeRuns ctx first j js

/-- Total of old-file lines consumed by a script chunk. -/
def sumOld (l : List DOp) : Nat := (l.map DOp.oldCount).sum

/-- Total of new-file lines produced by a script chunk. -/
def sumNew (l : List DOp) : Nat := (l.map DOp.newCount).sum

/-- The hunk covering one change run, with `ctx` lines of context on each
side and 1-based `@@` start positions. -/
def mkHunk (ctx : Nat) (ops : List DOp) (run : Nat × Nat) : Hunk :=
  let lo := run.1 - ctx
  let hi := min (run.2 + ctx) (ops.length - 1)
  let before := ops.take lo
  let body := (ops.drop lo).take (hi + 1 - lo)
  { oldStart := sumOld before + 1, oldLines := sumOld body,
    newStart := sumNew before + 1, newLines := sumNew body,
    lines := body.map DOp.render }

/-- The hunks of the unified diff from `oldStr` to `newStr` with 3 context
lines; empty when the texts are equal. -/
def structuredHunks (oldStr newStr : String) : List Hunk :=
  let ops := diffOps (jsSplit '\n' oldStr) (jsSplit '\n' newStr)
  let ch := (ops.enum.filter (fun p => p.2.changed)).map Prod.fst
  match ch with
  | [] => []
  | i :: is => (groupChangeRuns 3 i i is).map (mkHunk 3 ops)

/-- Rendering of one hunk. -/
def Hunk.render (h : Hunk) : String :=
  "@@ -" ++ toString h.oldStart ++ "," ++ toString h.oldLines ++
  " +" ++ toString h.newStart ++ "," ++ toString h.newLines ++ " @@\n" ++
  String.join (h.lines.map (· ++ "\n"))

/-- Model of the `diff` package's `createTwoFilesPatch(oldFileName,
newFileName, oldStr, newStr)`: the unified diff FROM `oldStr` TO `newStr`,
headed by `---`/`+++` label lines. -/
def createTwoFilesPatch (oldFileName newFileName oldStr newStr : String) : String :=
  String.mk (List.replicate 67 '=') ++ "\n" ++
  "--- " ++ oldFileName ++ "\n" ++
  "+++ " ++ newFileName ++ "\n" ++
  String.join ((structuredHunks oldStr newStr).map Hunk.render)

/-- The JSON body of a successful GET /api/snippets/:id/diff/:version
response. -/
structure DiffResponse where
  current_title : String
  current_content : String
  current_version : Nat
  version_title : String
  version_content : String
  version_number : Nat
  diff : String
  deriving DecidableEq, Repr

/-- GET /api/snippets/:id/diff/:version from `routes/snippets.js`: 404 when
the snippet, then the snapshot, is missing; otherwise both bodies, both
version numbers, and the patch — whose OLD side is the LIVE content and
whose NEW side is the SNAPSHOT content, in the argument order of the call
site. The route reads the store and never writes it. -/
def diffRoute (db : DB) (id vn : Nat) : Except ErrResp DiffResponse :=
  match findSnippet db id with
  | none => .error ⟨404, "Snippet not found"⟩
  | some current =>
    match findVersionRow db id vn with
    | none => .error ⟨404, "Version not found"⟩
    | some ver =>
      .ok { current_title := current.title, current_content := current.content,
            current_version := current.version,
            version_title := ver.title, version_content := ver.content,
            version_number := ver.version_number,
            diff := createTwoFilesPatch (current.title ++ " (current)")
              (ver.title ++ " (v" ++ toString ver.version_number ++ ")")
              current.content ver.content }

/-! ## Export/import service (`services/exportImport.js`) -/

/-- One entry of the export document's `tags` list: a name and a color; the
color is `none` when the JS expression `tag_colors.split(',')[index]?.trim()`
produced `undefined` (index out of range after comma-splitting). -/
abbrev ExportTag := String × Option String

/-- One snippet record of the JSON export document (the modelled fields;
`updated_at` and the document metadata are carried nowhere). -/
structure ExportRecord where
  id : Nat
  title : String
  content : String
  language : String
  source : Option String
  version : Nat
  created_at : Nat
  is_favorite : Bool
  tags : List ExportTag
  deriving DecidableEq, Repr

/-- The JSON export document. -/
structure ExportDoc where
  version : String
  total_snippets : Nat
  snippets : List ExportRecord
  deriving DecidableEq, Repr

/-- The tags joined onto one snippet row, in link-table order (the order
the GROUP_CONCAT aggregates see). -/
def linkedTags (db : DB) (sid : Nat) : List Tag :=
  (db.snippet_tags.filter (fun l => l.1 == sid)).filterMap
    (fun l => db.tags.find? (fun t => t.id == l.2))

/-- The `tags` field of one export record: `GROUP_CONCAT(t.name)` and
`GROUP_CONCAT(t.color)` are comma-joined, then split back on commas and
trimmed, pairing names with colors positionally (`'#6B7280'` when the
joined colors string is falsy, `undefined` when the index runs past the
split colors). A NULL or empty joined names string is falsy and yields no
tags at all. -/
def exportTagsField (db : DB) (sid : Nat) : List ExportTag :=
  let ts := linkedTags db sid
  if ts.isEmpty then []
  else
    let tagNames := String.intercalate "," (ts.map Tag.name)
    let tagColors := String.intercalate "," (ts.map Tag.color)
    if tagNames = "" then []
    else
      (jsSplit ',' tagNames).enum.map (fun p =>
        (jsTrim p.2,
         if tagColors = "" then some "#6B7280"
         else ((jsSplit ',' tagColors).get? p.1).map jsTrim))

/-- Insertion step of the descending sort on `created_at`. -/
def insertDescByCreated (s : Snippet) : List Snippet → List Snippet
  | [] => [s]
  | w :: ws =>
    if w.created_at ≥ s.created_at then w :: insertDescByCreated s ws
    else s :: w :: ws

/-- `ORDER BY s.created_at DESC` as an insertion sort. -/
def sortDescByCreated (l : List Snippet) : List Snippet := l.foldr insertDescByCreated []

/-- `exportToJSON(snippetIds)`: an empty id list selects every snippet;
otherwise `WHERE s.id IN (...)`. Rows are grouped per snippet with their
tag list and favorite flag and ordered by creation time descending. -/
def exportToJSON (db : DB) (snippetIds : List Nat) : ExportDoc :=
  let rows := if snippetIds.isEmpty then db.snippets
    else db.snippets.filter (fun s => snippetIds.contains s.id)
  let recs := (sortDescByCreated rows).map (fun s =>
    { id := s.id, title := s.title, content := s.content, language := s.language,
      source := s.source, version := s.version, created_at := s.created_at,
      is_favorite := db.favorites.contains s.id,
      tags := exportTagsField db s.id : ExportRecord })
  { version := "1.1.0", total_snippets := recs.length, snippets := recs }

/-- One incoming tag of an import record: either a bare string or an
object with optional `name` and `color` (absent fields are `none`). -/
inductive TagData where
  | str (name : String)
  | obj (name : Option String) (color : Option String)
  deriving DecidableEq, Repr

/-- One incoming snippet record of an import document. `none` models an
absent (or non-string / non-array) field. -/
structure ImportRecord where
  title : Option String
  content : Option String
  language : Option String
  source : Option String
  tags : Option (List TagData)
  is_favorite : Bool
  deriving DecidableEq, Repr

/-- The `importFromJSON` options bundle (route defaults:
`overwriteExisting = false`, `skipDuplicates = true`,
`preserveIds = false`). -/
structure ImportOptions where
  overwriteExisting : Bool
  skipDuplicates : Bool
  preserveIds : Bool
  deriving DecidableEq, Repr

/-- An import document as `importFromJSON` receives it: `none` when the
`snippets` member is missing or not an array. -/
structure ImportDoc where
  snippets : Option (List ImportRecord)
  deriving DecidableEq, Repr

/-- One entry of the import result ledger. -/
structure ImportDetail where
  title : Option String
  status : String
  message : String
  deriving DecidableEq, Repr

/-- The import result summary. -/
structure ImportResults where
  success : Nat
  skipped : Nat
  errors : Nat
  details : List ImportDetail
  deriving DecidableEq, Repr

/-- `ensureTagExists(tagName, tagColor = '#6B7280')`: insert the tag when
no row has that name; `none` models an `undefined` color argument, for
which the JS default parameter applies. -/
def ensureTagExists (db : DB) (name : String) (color : Option String) : DB :=
  match findTagByName db name with
  | some _ => db
  | none =>
    let row : Tag := ⟨db.nextTagId, name, color.getD "#6B7280"⟩
    { db with tags := db.tags ++ [row], nextTagId := db.nextTagId + 1 }

/-- One iteration of the tag loop in `importSingleSnippet`: bare-string
tags and `{name, color}` objects (skipped when `name` is falsy) are
resolved — creating the tag when missing — and linked to `sid`. -/
def importTagStep (sid : Option Nat) (db : DB) (td : TagData) : DB :=
  match td with
  | .str name =>
    let db := ensureTagExists db name none
    match findTagByName db name with
    | some t => insertLinkOrIgnore db sid t.id
    | none => db
  | .obj name color =>
    if strTruthy name then
      let db := ensureTagExists db (name.getD "") color
      match findTagByName db (name.getD "") with
      | some t => insertLinkOrIgnore db sid t.id
      | none => db
    else db

/-- `INSERT OR IGNORE INTO favorites (snippet_id) VALUES (?)`; a `none`
snippet id binds NULL, which OR IGNORE skips (NOT NULL violation). -/
def insertFavoriteOrIgnore (db : DB) (sid : Option Nat) : DB :=
  match sid with
  | none => db
  | some sid =>
    if sid ∈ db.favorites then db
    else { db with favorites := db.favorites ++ [sid] }

/-- `DELETE FROM favorites WHERE snippet_id = ?`; a NULL id matches no
row. -/
def deleteFavorite (db : DB) (sid : Option Nat) : DB :=
  match sid with
  | none => db
  | some sid => { db with favorites := db.favorites.filter (fun f => f != sid) }

/-- `snippetData.language || 'plaintext'`. -/
def jsLangOrPlaintext : Option String → String
  | some s => if s = "" then "plaintext" else s
  | none => "plaintext"

/-- `SELECT id FROM snippets WHERE title = ? AND content = ?`: the
duplicate-detection probe (first matching row). -/
def findSnippetByTitleContent (db : DB) (t c : String) : Option Snippet :=
  db.snippets.find? (fun s => s.title == t && s.content == c)

/-- `importSingleSnippet(snippetData, options)`. Throws (as `.error`) on a
falsy title or content and on the duplicate-skip policy; otherwise either
overwrites the matched snippet in place (a raw UPDATE, so the versioning
trigger sees it — with identical title and content it never fires), creates
a new snippet, or — duplicate with neither overwrite nor skip — touches no
snippet at all. Returns the JS `snippetId` variable, which is `undefined`
(`none`) on the no-path case AND on the create path: the store wrapper
resolves `{id, changes}` while this code reads `result.lastID`. Tag and
favorite processing then runs against that possibly-undefined id. -/
def importSingleSnippet (db : DB) (r : ImportRecord) (opts : ImportOptions) :
    Except String (DB × Option Nat) :=
  if !strTruthy r.title || !strTruthy r.content then
    .error "Missing required fields: title or content"
  else
    let t := r.title.getD ""
    let c := r.content.getD ""
    let existing := findSnippetByTitleContent db t c
    if existing.isSome && opts.skipDuplicates && !opts.overwriteExisting then
      .error "Snippet already exists (skipped)"
    else
      let step : DB × Option Nat :=
        match existing with
        | some s =>
          if opts.overwriteExisting then
            (updateSnippetFields db s.id t c (jsLangOrPlaintext r.language)
              (jsOrNullStr r.source), some s.id)
          else (db, none)
        | none =>
          let newId := db.nextSnippetId
          let db := { db with
            snippets := db.snippets ++
              [⟨newId, t, c, jsLangOrPlaintext r.language, jsOrNullStr r.source, 1, db.clock⟩],
            nextSnippetId := newId + 1,
            clock := db.clock + 1 }
          (db, none)
      let db := step.1
      let sid := step.2
      let db := match r.tags with
        | none => db
        | some tds => (tds.foldl (importTagStep sid) (deleteLinksFor db sid))
      let db := if r.is_favorite then insertFavoriteOrIgnore db sid else deleteFavorite db sid
      .ok (db, sid)

/-- A ledger entry for a caught per-record error. -/
def importDetailError (t : Option String) (msg : String) : ImportDetail := ⟨t, "error", msg⟩

/-- A ledger entry for a successfully imported record. -/
def importDetailOk (t : Option String) : ImportDetail := ⟨t, "imported", "Successfully imported"⟩

/-- The body of the per-record loop of `importFromJSON`: a thrown error is
caught, counted and recorded, and the loop continues on the pre-record
store (every throw in `importSingleSnippet` happens before its first
write). -/
def importStep (opts : ImportOptions) (acc : DB × ImportResults) (r : ImportRecord) :
    DB × ImportResults :=
  match importSingleSnippet acc.1 r opts with
  | .ok (db2, _) =>
    let res := { acc.2 with success := acc.2.success + 1 }
    (db2, { res with details := res.details ++ [importDetailOk r.title] })
  | .error msg =>
    let res := { acc.2 with errors := acc.2.errors + 1 }
    (acc.1, { res with details := res.details ++ [importDetailError r.title msg] })

/-- The zero result accumulator. -/
def emptyResults : ImportResults := ⟨0, 0, 0, []⟩

/-- `importFromJSON(importData, options)`: a missing `snippets` array
throws before the loop, the transaction is rolled back and the store is
returned unchanged; otherwise the records are folded through `importStep`
inside one committed transaction. -/
def importFromJSON (db : DB) (doc : ImportDoc) (opts : ImportOptions) :
    DB × Except String ImportResults :=
  match doc.snippets with
  | none => (db, .error "Import failed: Invalid import data format: missing snippets array")
  | some rs =>
    let out := rs.foldl (importStep opts) (db, emptyResults)
    (out.1, .ok out.2)

/-- Re-reading one export record as an import record (the JSON round
trip): field names line up one for one. -/
def exportRecordToImportRecord (r : ExportRecord) : ImportRecord :=
  { title := some r.title, content := some r.content, language := some r.language,
    source := r.source,
    tags := some (r.tags.map (fun p => TagData.obj (some p.1) p.2)),
    is_favorite := r.is_favorite }

/-- Re-reading a whole export document as an import document. -/
def exportDocToImportDoc (d : ExportDoc) : ImportDoc :=
  { snippets := some (d.snippets.map exportRecordToImportRecord) }

/-- Extract the store from a route result (all uses are on `.ok` results;
the fallback keeps the helper total). -/
def okDB : Except ErrResp DB → DB
  | .ok db => db
  | .error _ => DB.empty

/-- Extract the store from a create-route result. -/
def okCreate : Except ErrResp (DB × Nat) → DB
  | .ok p => p.1
  | .error _ => DB.empty

/-- The live row as it looks after an UPDATE of the four editable fields
plus a version bump of `bump`. -/
def overwritten (s : Snippet) (t c l : String) (src : Option String) (bump : Nat) : Snippet :=
  { s with title := t, content := c, language := l, source := src, version := s.version + bump }

/-! ## Concrete example stores -/

/-- One snippet `"A"`/`"x=1"` (id 1, version 1, no snapshots). -/
def exDb1 : DB := okCreate (createSnippetRoute DB.empty "A" "x=1" "python" none none)

/-- `exDb1` after updating the content to `"x=2"` (snapshot 1, version 2). -/
def exDb2 : DB := okDB (updateSnippetRoute exDb1 1 "A" "x=2" "python" none none)

/-- `exDb2` after updating the content back to `"x=1"` (snapshots 1 and 2,
version 3, live content again `"x=1"`). -/
def exDb3 : DB := okDB (updateSnippetRoute exDb2 1 "A" "x=1" "python" none none)

/-- The diff the claim describes, in the spec's own words: the OLD text is
the SNAPSHOT's content and the NEW text is the LIVE snippet's content
(header labels as the route prints them). Compare with `diffRoute`, whose
call site passes the live content in the old-text position. -/
def claimDiffSnapshotToLive (db : DB) (id vn : Nat) : Option String :=
  match findSnippet db id, findVersionRow db id vn with
  | some current, some ver =>
    some (createTwoFilesPatch (current.title ++ " (current)")
      (ver.title ++ " (v" ++ toString ver.version_number ++ ")") ver.content current.content)
  | _, _ => none

/-- The store with one snippet `"T"`/`"c"` carrying the single tag
`"a,b"` — a tag name containing a comma. -/
def exDbComma : DB :=
  okCreate (createSnippetRoute DB.empty "T" "c" "python" none (some ["a,b"]))

/-- The store with one snippet `"T"`/`"c"` carrying the single comma-free
tag `"util"`. -/
def exDbTag : DB :=
  okCreate (createSnippetRoute DB.empty "T" "c" "python" none (some ["util"]))

/-- Arguments of one PUT /api/snippets/:id request. -/
structure UpdArgs where
  title : String
  content : String
  language : String
  source : Option String
  tags : Option (List String)

/-- A chain of successful PUT updates on snippet `i`, each one changing
the stored title or content (so each one satisfies the versioning
trigger's firing condition). -/
inductive UpdSeq (i : Nat) : DB → List UpdArgs → DB → Prop where
  | nil (db : DB) : UpdSeq i db [] db
  | cons {db db1 db2 : DB} {u : UpdArgs} {us : List UpdArgs}
      (hok : updateSnippetRoute db i u.title u.content u.language u.source u.tags = .ok db1)
      (hchange : ∃ s, findSnippet db i = some s ∧
        (jsTrim u.title ≠ s.title ∨ u.content ≠ s.content))
      (hrest : UpdSeq i db1 us db2) : UpdSeq i db (u :: us) db2

/-! ## Helper lemmas -/

/-- A keyed `find?` hits a member when the keys are nodup. -/
theorem find_key_of_mem {α β : Type} [DecidableEq β] (key : α → β) {l : List α} {x : α}
    (hmem : x ∈ l) (hnd : (l.map key).Nodup) :
    l.find? (fun y => key y == key x) = some x := by
  induction l with
  | nil => cases hmem
  | cons a l ih =>
    rw [List.map_cons] at hnd
    have hnd' := List.nodup_cons.mp hnd
    rcases List.mem_cons.mp hmem with rfl | hmem'
    · exact List.find?_cons_of_pos _ (by simp)
    · have hne : (key a == key x) = false := by
        simp only [beq_eq_false_iff_ne, ne_eq]
        intro he
        exact hnd'.1 (he ▸ List.mem_map_of_mem key hmem')
      simp only [List.find?_cons, hne]
      exact ih hmem' hnd'.2

/-- `UPDATE ... WHERE id = ?` keeps `find?` pointed at the (first) matching
row, now transformed. -/
theorem find?_map_update {l : List Snippet} {id : Nat} {s : Snippet} {φ : Snippet → Snippet}
    (h : l.find? (fun r => r.id == id) = some s) (hs : (φ s).id = id) :
    (l.map (fun r => if r.id = id then φ r else r)).find? (fun r => r.id == id) =
      some (φ s) := by
  induction l with
  | nil => simp at h
  | cons a l ih =>
    by_cases ha : a.id = id
    · rw [List.find?_cons_of_pos _ (by simpa using ha)] at h
      obtain rfl : s = a := by simpa using h.symm
      rw [List.map_cons, if_pos ha]
      exact List.find?_cons_of_pos _ (by simpa using hs)
    · rw [List.find?_cons_of_neg _ (by simpa using ha)] at h
      rw [List.map_cons, if_neg ha]
      rw [List.find?_cons_of_neg _ (by simpa using ha)]
      exact ih h

/-- An id-preserving row update leaves the id column unchanged. -/
theorem map_update_ids {l : List Snippet} {i : Nat} {φ : Snippet → Snippet}
    (hφ : ∀ r, r.id = i → (φ r).id = r.id) :
    (l.map (fun r => if r.id = i then φ r else r)).map Snippet.id = l.map Snippet.id := by
  rw [List.map_map]
  apply List.map_congr_left
  intro r _
  by_cases hr : r.id = i
  · simp [hr, hφ r hr]
  · simp [hr]

/-! ## Claim C9: tag deletion -/

/-- C9: DELETE /api/tags/:id fails with 404 on a nonexistent tag; when at
least one snippet links the tag it fails with the conflict-style response
reporting the exact usage count and changes nothing; the tag row is deleted
only when the usage count is zero, and even then the link table is
untouched. -/
theorem tags_delete_conflict_spec (db : DB) (tagId : Nat) :
    (db.tags.find? (fun t => t.id == tagId) = none →
      deleteTagRoute db tagId = (db, DeleteTagOutcome.notFound)) ∧
    ((db.tags.find? (fun t => t.id == tagId)).isSome →
      0 < (db.snippet_tags.filter (fun l => l.2 == tagId)).length →
      deleteTagRoute db tagId =
        (db, DeleteTagOutcome.inUse (db.snippet_tags.filter (fun l => l.2 == tagId)).length)) ∧
    ((deleteTagRoute db tagId).2 = DeleteTagOutcome.deleted →
      (db.snippet_tags.filter (fun l => l.2 == tagId)).length = 0 ∧
      (deleteTagRoute db tagId).1.snippet_tags = db.snippet_tags ∧
      (deleteTagRoute db tagId).1.tags = db.tags.filter (fun t => t.id != tagId)) := by
  refine ⟨?_, ?_, ?_⟩
  · intro h
    simp only [deleteTagRoute, h]
  · intro hs hpos
    obtain ⟨t, h⟩ := Option.isSome_iff_exists.mp hs
    simp only [deleteTagRoute, h, if_pos hpos]
  · intro hd
    rcases h : db.tags.find? (fun t => t.id == tagId) with _ | t
    · simp only [deleteTagRoute, h] at hd
      exact DeleteTagOutcome.noConfusion hd
    · by_cases hc : 0 < (db.snippet_tags.filter (fun l => l.2 == tagId)).length
      · simp only [deleteTagRoute, h, if_pos hc] at hd
        exact DeleteTagOutcome.noConfusion hd
      · refine ⟨by omega, ?_, ?_⟩ <;> simp only [deleteTagRoute, h, if_neg hc]

/-- Concrete instance of `tags_delete_conflict_spec`: in the store with one
snippet tagged `"t"`, deleting that tag is refused with usage count 1 and
the store is unchanged. -/
theorem tags_delete_conflict_witness :
    deleteTagRoute (okCreate (createSnippetRoute DB.empty "T" "c" "js" none (some ["t"]))) 1 =
      (okCreate (createSnippetRoute DB.empty "T" "c" "js" none (some ["t"])),
       DeleteTagOutcome.inUse 1) :=
  (tags_delete_conflict_spec _ 1).2.1 (by decide) (by decide)

/-! ## Claim C8: import validation -/

/-- C8: `validateImportData` (a total function — it never throws) returns
`valid = false` with a non-empty error list for every document without a
truthy `snippets` array; a single-entry document whose entry lacks `title`
(with valid content/language/tags) yields `valid = false` with exactly the
one error labelled for the entry at index 0 (rendered 1-based as
"Snippet 1"); per-snippet checks flag missing/non-string title,
missing/non-string content, present non-string language, and present
non-array tags; and the report is coherent: `valid` is exactly the
emptiness of `errors`. -/
theorem validateImportData_spec :
    (∀ d : JVal, (!(d.getField "snippets").truthy || !(d.getField "snippets").isArray) = true →
      (validateImportData d).valid = false ∧ (validateImportData d).errors ≠ []) ∧
    (∀ e : JVal, e.getField "title" = JVal.null →
      (!(e.getField "content").truthy || !(e.getField "content").isString) = false →
      ((e.getField "language").truthy && !(e.getField "language").isString) = false →
      ((e.getField "tags").truthy && !(e.getField "tags").isArray) = false →
      validateImportData (JVal.obj [("snippets", JVal.arr [e])]) =
        ⟨false, ["Snippet 1: Missing or invalid title"], [], ⟨1, 0, 1⟩⟩) ∧
    (∀ e : JVal, ∀ i : Nat,
      ((!(e.getField "title").truthy || !(e.getField "title").isString) = true →
        ("Snippet " ++ toString (i + 1) ++ ": " ++ "Missing or invalid title")
          ∈ validateSnippet e i) ∧
      ((!(e.getField "content").truthy || !(e.getField "content").isString) = true →
        ("Snippet " ++ toString (i + 1) ++ ": " ++ "Missing or invalid content")
          ∈ validateSnippet e i) ∧
      (((e.getField "language").truthy && !(e.getField "language").isString) = true →
        ("Snippet " ++ toString (i + 1) ++ ": " ++ "Invalid language field")
          ∈ validateSnippet e i) ∧
      (((e.getField "tags").truthy && !(e.getField "tags").isArray) = true →
        ("Snippet " ++ toString (i + 1) ++ ": " ++ "Invalid tags field (must be array)")
          ∈ validateSnippet e i)) ∧
    (∀ d : JVal, (validateImportData d).valid = (validateImportData d).errors.isEmpty) := by
  refine ⟨?_, ?_, ?_, ?_⟩
  · intro d hna
    unfold validateImportData
    by_cases h1 : (!d.truthy || !d.typeofObject) = true
    · rw [if_pos h1]; exact ⟨rfl, by simp⟩
    · rw [if_neg h1, if_pos hna]; exact ⟨rfl, by simp⟩
  · intro e htitle hcon hlang htags
    have he : JVal.getField (JVal.obj [("snippets", JVal.arr [e])]) "snippets" = JVal.arr [e] := rfl
    have ht : (!(e.getField "title").truthy || !(e.getField "title").isString) = true := by
      rw [htitle]; rfl
    have hv : validateSnippet e 0 = ["Snippet 1: Missing or invalid title"] := by
      simp only [validateSnippet, ht, hcon, hlang, htags]
      decide
    unfold validateImportData
    rw [if_neg (by simp [JVal.truthy, JVal.typeofObject]),
      if_neg (by rw [he]; simp [JVal.truthy, JVal.isArray])]
    rw [he]
    simp only [List.enum, List.enumFrom, List.map, hv]
    rfl
  · intro e i
    refine ⟨fun h => ?_, fun h => ?_, fun h => ?_, fun h => ?_⟩ <;> simp [validateSnippet, h]
  · intro d
    unfold validateImportData
    by_cases h1 : (!d.truthy || !d.typeofObject) = true
    · rw [if_pos h1]; rfl
    · rw [if_neg h1]
      by_cases h2 : (!(d.getField "snippets").truthy || !(d.getField "snippets").isArray) = true
      · rw [if_pos h2]; rfl
      · rw [if_neg h2]

/-- Concrete instance of `validateImportData_spec`: the empty object lacks
`snippets` and is rejected with a non-empty error list, and the
one-snippet document `{snippets: [{content: "x"}]}` is rejected with
exactly the index-0 title error. -/
theorem validateImportData_witness :
    ((validateImportData (JVal.obj [])).valid = false ∧
      (validateImportData (JVal.obj [])).errors ≠ []) ∧
    validateImportData (JVal.obj [("snippets", JVal.arr [JVal.obj [("content", JVal.str "x")]])]) =
      ⟨false, ["Snippet 1: Missing or invalid title"], [], ⟨1, 0, 1⟩⟩ :=
  ⟨validateImportData_spec.1 (JVal.obj []) rfl,
   validateImportData_spec.2.1 (JVal.obj [("content", JVal.str "x")]) rfl rfl rfl rfl⟩

/-! ## More helper lemmas: diffs of equal texts, appends, field updates -/

/-- With enough fuel, diffing a line list against itself keeps every
line. -/
theorem diffOpsF_self (l : List String) (f : Nat) (hf : l.length ≤ f) :
    diffOpsF f l l = l.map DOp.keep := by
  induction l generalizing f with
  | nil => cases f <;> rfl
  | cons x xs ih =>
    cases f with
    | zero => simp at hf
    | succ f =>
      have hstep : diffOpsF (f + 1) (x :: xs) (x :: xs) = .keep x :: diffOpsF f xs xs := by
        simp [diffOpsF]
      rw [hstep, List.map_cons, ih f (by simp at hf; omega)]

/-- Context operations contribute no change indices. -/
theorem filter_changed_keep (l : List String) (n : Nat) :
    ((l.map DOp.keep).enumFrom n).filter (fun p => p.2.changed) = [] := by
  induction l generalizing n with
  | nil => rfl
  | cons x xs ih => simpa [List.enumFrom, DOp.changed] using ih (n + 1)

/-- Context operations contribute no change indices (0-based enumeration). -/
theorem filter_changed_keep_enum (l : List String) :
    ((l.map DOp.keep).enum).filter (fun p => p.2.changed) = [] :=
  filter_changed_keep l 0

/-- The unified diff of a text against itself has no hunks. -/
theorem structuredHunks_self (s : String) : structuredHunks s s = [] := by
  simp only [structuredHunks, diffOps]
  rw [diffOpsF_self _ _ (by omega), filter_changed_keep_enum]
  rfl

/-- `find?` stays on its first hit when rows are appended. -/
theorem find?_append_some {α : Type} {p : α → Bool} {l₁ : List α} {x : α} (l₂ : List α)
    (h : l₁.find? p = some x) : (l₁ ++ l₂).find? p = some x := by
  induction l₁ with
  | nil => simp at h
  | cons a l ih =>
    rcases hb : p a with _ | _
    · rw [List.find?_cons_of_neg _ (by simp [hb])] at h
      rw [List.cons_append, List.find?_cons_of_neg _ (by simp [hb])]
      exact ih h
    · rw [List.find?_cons_of_pos _ hb] at h
      rw [List.cons_append, List.find?_cons_of_pos _ hb]
      exact h

/-- Full characterization of the parameterized UPDATE plus triggers: the
live row takes the new fields and its version is bumped exactly when title
or content changed, the versions table gains exactly the matching snapshot
of the old row, the id column and every other table are untouched. -/
theorem updateSnippetFields_spec {db : DB} {id : Nat} {s : Snippet}
    (h : findSnippet db id = some s) (t c l : String) (src : Option String) :
    findSnippet (updateSnippetFields db id t c l src) id =
      some (overwritten s t c l src (if s.content ≠ c ∨ s.title ≠ t then 1 else 0)) ∧
    (updateSnippetFields db id t c l src).versions =
      db.versions ++ (if s.content ≠ c ∨ s.title ≠ t then
        [⟨db.nextVersionId, s.id, s.title, s.content, s.language, s.source, s.version⟩] else []) ∧
    (updateSnippetFields db id t c l src).snippets.map Snippet.id =
      db.snippets.map Snippet.id ∧
    (updateSnippetFields db id t c l src).tags = db.tags ∧
    (updateSnippetFields db id t c l src).snippet_tags = db.snippet_tags ∧
    (updateSnippetFields db id t c l src).favorites = db.favorites ∧
    (updateSnippetFields db id t c l src).nextSnippetId = db.nextSnippetId ∧
    (updateSnippetFields db id t c l src).clock = db.clock := by
  have hsid : s.id = id := by
    have := List.find?_some h
    simpa using this
  subst hsid
  simp only [updateSnippetFields, h, save_snippet_version]
  by_cases hc : s.content ≠ c ∨ s.title ≠ t
  · simp only [if_pos hc]
    refine ⟨?_, by simp, ?_, trivial, trivial, trivial, trivial, trivial⟩
    · have h1 := find?_map_update (φ := fun _ =>
        { s with title := t, content := c, language := l, source := src }) h rfl
      have h2 := find?_map_update (φ := fun r => { r with version := r.version + 1 }) h1 rfl
      exact h2
    · rw [map_update_ids (i := s.id) (φ := fun r => { r with version := r.version + 1 })
        (fun r _ => rfl),
        map_update_ids (i := s.id) (φ := fun _ =>
          { s with title := t, content := c, language := l, source := src })
        (fun r hr => hr.symm)]
  · simp only [if_neg hc]
    refine ⟨?_, by simp, ?_, trivial, trivial, trivial, trivial, trivial⟩
    · have h1 := find?_map_update (φ := fun _ =>
        { s with title := t, content := c, language := l, source := src }) h rfl
      exact h1
    · rw [map_update_ids (i := s.id) (φ := fun _ =>
        { s with title := t, content := c, language := l, source := src })
        (fun r hr => hr.symm)]

/-! ## Claim C3: the diff endpoint -/

/-- C3 counterexample: in `exDb2` (live content `"x=2"`, snapshot 1 content
`"x=1"`) the diff returned by the route is not the snapshot-to-live diff
the claim describes: the route emits `-x=2`/`+x=1` (its old side is the
live content), while the claim demands `-x=1`/`+x=2`. -/
theorem diff_direction_counterexample :
    (diffRoute exDb2 1 1).toOption.map DiffResponse.diff ≠ claimDiffSnapshotToLive exDb2 1 1 := by
  decide

/-- C3 (amended): GET /:id/diff/:version 404s when the snippet (then the
snapshot) is missing, and on success returns — without touching the store,
as its type shows — both full bodies, both version numbers, and the
unified-diff text block (`---`/`+++` labels, `@@` ranges, 3 context lines)
whose OLD text is the LIVE snippet's content and whose NEW text is the
SNAPSHOT's content. -/
theorem diff_route_spec (db : DB) (id vn : Nat) :
    (findSnippet db id = none → diffRoute db id vn = .error ⟨404, "Snippet not found"⟩) ∧
    (∀ cur, findSnippet db id = some cur → findVersionRow db id vn = none →
      diffRoute db id vn = .error ⟨404, "Version not found"⟩) ∧
    (∀ cur ver, findSnippet db id = some cur → findVersionRow db id vn = some ver →
      diffRoute db id vn = .ok
        ⟨cur.title, cur.content, cur.version, ver.title, ver.content, ver.version_number,
         createTwoFilesPatch (cur.title ++ " (current)")
           (ver.title ++ " (v" ++ toString ver.version_number ++ ")")
           cur.content ver.content⟩) := by
  refine ⟨?_, ?_, ?_⟩
  · intro h
    simp only [diffRoute, h]
  · intro cur h hv
    simp only [diffRoute, h, hv]
  · intro cur ver h hv
    simp only [diffRoute, h, hv]

/-- Concrete instance of `diff_route_spec` on `exDb2`. -/
theorem diff_route_witness :
    diffRoute exDb2 1 1 = .ok
      ⟨"A", "x=2", 2, "A", "x=1", 1,
       createTwoFilesPatch ("A" ++ " (current)") ("A" ++ " (v" ++ toString 1 ++ ")")
         "x=2" "x=1"⟩ :=
  (diff_route_spec exDb2 1 1).2.2 ⟨1, "A", "x=2", "python", none, 2, 0⟩
    ⟨1, 1, "A", "x=1", "python", none, 1⟩ (by decide) (by decide)

/-! ## Claim C2: rollback -/

/-- C2 counterexample: in `exDb3` the live title/content (`"A"`/`"x=1"`)
already equal snapshot 1, so the rollback to version 1 succeeds but the
snapshot count stays 2 — it does not increase by exactly 1 as the claim
states. -/
theorem rollback_count_counterexample :
    (rollbackRoute exDb3 1 1).isOk = true ∧
    exDb3.versions.length = 2 ∧
    (okDB (rollbackRoute exDb3 1 1)).versions.length = 2 := by
  decide

/-- C2 (amended): rollback 404s when no snapshot carries the requested
version number; on success it copies the snapshot's
title/content/language/source onto the live snippet, so the subsequent
diff at that version is empty (equal bodies, zero hunks); existing
snapshots are never deleted or altered (the versions table only grows),
and the snapshot count increases by exactly 1 when the live title or
content differed from the snapshot — and by 0 when both already matched
(the trigger's change condition fails). -/
theorem rollback_spec (db : DB) (id vn : Nat) :
    (findVersionRow db id vn = none →
      rollbackRoute db id vn = .error ⟨404, "Version not found"⟩) ∧
    (∀ ver s, findVersionRow db id vn = some ver → findSnippet db id = some s →
      ∃ db', rollbackRoute db id vn = .ok db' ∧
        findSnippet db' id = some (overwritten s ver.title ver.content ver.language ver.source
          (if s.content ≠ ver.content ∨ s.title ≠ ver.title then 1 else 0)) ∧
        db'.versions = db.versions ++
          (if s.content ≠ ver.content ∨ s.title ≠ ver.title then
            [⟨db.nextVersionId, s.id, s.title, s.content, s.language, s.source, s.version⟩]
          else []) ∧
        db'.versions.length = db.versions.length +
          (if s.content ≠ ver.content ∨ s.title ≠ ver.title then 1 else 0) ∧
        (∀ w ∈ db.versions, w ∈ db'.versions) ∧
        ∃ resp, diffRoute db' id vn = .ok resp ∧
          resp.current_content = ver.content ∧ resp.version_content = ver.content ∧
          structuredHunks resp.current_content resp.version_content = []) := by
  constructor
  · intro h
    simp only [rollbackRoute, h]
  · intro ver s hv hs
    obtain ⟨hfind, hvers, _, _, _, _, _, _⟩ :=
      updateSnippetFields_spec hs ver.title ver.content ver.language ver.source
    refine ⟨updateSnippetFields db id ver.title ver.content ver.language ver.source,
      by simp only [rollbackRoute, hv], hfind, hvers, ?_, ?_, ?_⟩
    · rw [hvers]
      by_cases hc : s.content ≠ ver.content ∨ s.title ≠ ver.title <;> simp [hc]
    · intro w hw
      rw [hvers]
      exact List.mem_append_left _ hw
    · have hv' : findVersionRow (updateSnippetFields db id ver.title ver.content
          ver.language ver.source) id vn = some ver := by
        unfold findVersionRow
        rw [hvers]
        exact find?_append_some _ hv
      refine ⟨_, (diff_route_spec _ id vn).2.2 _ ver hfind hv', rfl, rfl, ?_⟩
      exact structuredHunks_self _

/-- Concrete instance of `rollback_spec`: rolling `exDb2` (live `"x=2"`)
back to snapshot 1 (`"x=1"`) succeeds and grows the snapshot count from 1
to 2. -/
theorem rollback_spec_witness :
    (rollbackRoute exDb2 1 1).isOk = true ∧
    (okDB (rollbackRoute exDb2 1 1)).versions.length = 2 := by
  obtain ⟨db', hok, hfind, hvers, hlen, hmono, hdiff⟩ :=
    (rollback_spec exDb2 1 1).2 ⟨1, 1, "A", "x=1", "python", none, 1⟩
      ⟨1, "A", "x=2", "python", none, 2, 0⟩ (by decide) (by decide)
  constructor
  · rw [hok]
    rfl
  · rw [hok]
    show db'.versions.length = 2
    rw [hlen]
    decide

/-! ## Frame lemmas for the tag/favorite processing of the import path -/

/-- Equal snippet tables look the same to `findSnippet`. -/
theorem findSnippet_congr {db1 db2 : DB} (h : db1.snippets = db2.snippets) (i : Nat) :
    findSnippet db1 i = findSnippet db2 i := by
  unfold findSnippet
  rw [h]

/-- Link insertion touches only the link table. -/
theorem insertLinkOrIgnore_frame (db : DB) (sid : Option Nat) (tid : Nat) :
    (insertLinkOrIgnore db sid tid).snippets = db.snippets ∧
    (insertLinkOrIgnore db sid tid).versions = db.versions ∧
    (insertLinkOrIgnore db sid tid).tags = db.tags ∧
    (insertLinkOrIgnore db sid tid).favorites = db.favorites := by
  cases sid with
  | none => exact ⟨rfl, rfl, rfl, rfl⟩
  | some s =>
    simp only [insertLinkOrIgnore]
    by_cases hm : (s, tid) ∈ db.snippet_tags
    · rw [if_pos hm]
      exact ⟨rfl, rfl, rfl, rfl⟩
    · rw [if_neg hm]
      exact ⟨rfl, rfl, rfl, rfl⟩

/-- Link deletion touches only the link table. -/
theorem deleteLinksFor_frame (db : DB) (sid : Option Nat) :
    (deleteLinksFor db sid).snippets = db.snippets ∧
    (deleteLinksFor db sid).versions = db.versions ∧
    (deleteLinksFor db sid).tags = db.tags ∧
    (deleteLinksFor db sid).favorites = db.favorites := by
  cases sid <;> exact ⟨rfl, rfl, rfl, rfl⟩

/-- `ensureTagExists` touches only the tag table. -/
theorem ensureTagExists_frame (db : DB) (n : String) (c : Option String) :
    (ensureTagExists db n c).snippets = db.snippets ∧
    (ensureTagExists db n c).versions = db.versions ∧
    (ensureTagExists db n c).snippet_tags = db.snippet_tags ∧
    (ensureTagExists db n c).favorites = db.favorites := by
  rcases h : findTagByName db n with _ | t <;>
    simp only [ensureTagExists, h] <;> exact ⟨trivial, trivial, trivial, trivial⟩

/-- One tag-loop iteration touches only the tag and link tables. -/
theorem importTagStep_frame (sid : Option Nat) (db : DB) (td : TagData) :
    (importTagStep sid db td).snippets = db.snippets ∧
    (importTagStep sid db td).versions = db.versions ∧
    (importTagStep sid db td).favorites = db.favorites := by
  cases td with
  | str n =>
    simp only [importTagStep]
    obtain ⟨h1, h2, _, h4⟩ := ensureTagExists_frame db n none
    rcases hf : findTagByName (ensureTagExists db n none) n with _ | t <;> simp only [hf]
    · exact ⟨h1, h2, h4⟩
    · obtain ⟨g1, g2, _, g4⟩ := insertLinkOrIgnore_frame (ensureTagExists db n none) sid t.id
      exact ⟨g1.trans h1, g2.trans h2, g4.trans h4⟩
  | obj n c =>
    simp only [importTagStep]
    by_cases hn : strTruthy n = true
    · rw [if_pos hn]
      obtain ⟨h1, h2, _, h4⟩ := ensureTagExists_frame db (n.getD "") c
      rcases hf : findTagByName (ensureTagExists db (n.getD "") c) (n.getD "") with _ | t <;>
        simp only [hf]
      · exact ⟨h1, h2, h4⟩
      · obtain ⟨g1, g2, _, g4⟩ :=
          insertLinkOrIgnore_frame (ensureTagExists db (n.getD "") c) sid t.id
        exact ⟨g1.trans h1, g2.trans h2, g4.trans h4⟩
    · rw [if_neg hn]
      exact ⟨rfl, rfl, rfl⟩

/-- The whole tag loop touches only the tag and link tables. -/
theorem foldl_importTagStep_frame (sid : Option Nat) :
    ∀ (tds : List TagData) (db : DB),
      (tds.foldl (importTagStep sid) db).snippets = db.snippets ∧
      (tds.foldl (importTagStep sid) db).versions = db.versions ∧
      (tds.foldl (importTagStep sid) db).favorites = db.favorites := by
  intro tds
  induction tds with
  | nil => exact fun db => ⟨rfl, rfl, rfl⟩
  | cons td tds ih =>
    intro db
    obtain ⟨h1, h2, h3⟩ := importTagStep_frame sid db td
    obtain ⟨g1, g2, g3⟩ := ih (importTagStep sid db td)
    exact ⟨g1.trans h1, g2.trans h2, g3.trans h3⟩

/-- With an undefined snippet id the tag loop cannot touch the link table
either (the OR IGNORE insert skips the NULL row). -/
theorem importTagStep_none_links (db : DB) (td : TagData) :
    (importTagStep none db td).snippet_tags = db.snippet_tags := by
  cases td with
  | str n =>
    simp only [importTagStep]
    have h := (ensureTagExists_frame db n none).2.2.1
    rcases hf : findTagByName (ensureTagExists db n none) n with _ | t <;> simp only [hf]
    · exact h
    · exact h
  | obj n c =>
    simp only [importTagStep]
    by_cases hn : strTruthy n = true
    · rw [if_pos hn]
      have h := (ensureTagExists_frame db (n.getD "") c).2.2.1
      rcases hf : findTagByName (ensureTagExists db (n.getD "") c) (n.getD "") with _ | t <;>
        simp only [hf]
      · exact h
      · exact h
    · rw [if_neg hn]

/-- With an undefined snippet id the whole tag loop leaves links alone. -/
theorem foldl_importTagStep_none_links :
    ∀ (tds : List TagData) (db : DB),
      (tds.foldl (importTagStep none) db).snippet_tags = db.snippet_tags := by
  intro tds
  induction tds with
  | nil => exact fun _ => rfl
  | cons td tds ih =>
    intro db
    exact (ih (importTagStep none db td)).trans (importTagStep_none_links db td)

/-- Favorite insertion touches only the favorites table. -/
theorem insertFavoriteOrIgnore_frame (db : DB) (sid : Option Nat) :
    (insertFavoriteOrIgnore db sid).snippets = db.snippets ∧
    (insertFavoriteOrIgnore db sid).versions = db.versions ∧
    (insertFavoriteOrIgnore db sid).tags = db.tags ∧
    (insertFavoriteOrIgnore db sid).snippet_tags = db.snippet_tags := by
  cases sid with
  | none => exact ⟨rfl, rfl, rfl, rfl⟩
  | some s =>
    simp only [insertFavoriteOrIgnore]
    by_cases hm : s ∈ db.favorites
    · rw [if_pos hm]
      exact ⟨rfl, rfl, rfl, rfl⟩
    · rw [if_neg hm]
      exact ⟨rfl, rfl, rfl, rfl⟩

/-- Favorite deletion touches only the favorites table. -/
theorem deleteFavorite_frame (db : DB) (sid : Option Nat) :
    (deleteFavorite db sid).snippets = db.snippets ∧
    (deleteFavorite db sid).versions = db.versions ∧
    (deleteFavorite db sid).tags = db.tags ∧
    (deleteFavorite db sid).snippet_tags = db.snippet_tags := by
  cases sid <;> exact ⟨rfl, rfl, rfl, rfl⟩

/-- The tag table only ever grows during `ensureTagExists`. -/
theorem tags_mono_ensure {db : DB} {t : Tag} (n : String) (c : Option String)
    (h : t ∈ db.tags) : t ∈ (ensureTagExists db n c).tags := by
  rcases hf : findTagByName db n with _ | u <;> simp only [ensureTagExists, hf]
  · exact List.mem_append_left _ h
  · exact h

/-- The tag table only ever grows during the tag loop. -/
theorem tags_mono_importTagStep {db : DB} {t : Tag} (sid : Option Nat) (td : TagData)
    (h : t ∈ db.tags) : t ∈ (importTagStep sid db td).tags := by
  cases td with
  | str n =>
    simp only [importTagStep]
    have h1 := tags_mono_ensure n none h
    rcases hf : findTagByName (ensureTagExists db n none) n with _ | u <;> simp only [hf]
    · exact h1
    · rw [(insertLinkOrIgnore_frame _ sid _).2.2.1]
      exact h1
  | obj n c =>
    simp only [importTagStep]
    by_cases hn : strTruthy n = true
    · rw [if_pos hn]
      have h1 := tags_mono_ensure (n.getD "") c h
      rcases hf : findTagByName (ensureTagExists db (n.getD "") c) (n.getD "") with _ | u <;>
        simp only [hf]
      · exact h1
      · rw [(insertLinkOrIgnore_frame _ sid _).2.2.1]
        exact h1
    · rw [if_neg hn]
      exact h

/-- The tag table only ever grows over the whole tag loop. -/
theorem tags_mono_fold (sid : Option Nat) :
    ∀ (tds : List TagData) {db : DB} {t : Tag},
      t ∈ db.tags → t ∈ (tds.foldl (importTagStep sid) db).tags := by
  intro tds
  induction tds with
  | nil => exact fun h => h
  | cons td tds ih => exact fun h => ih (tags_mono_importTagStep sid td h)

/-- After `ensureTagExists` a row with the requested name exists. -/
theorem ensure_has_name (db : DB) (n : String) (c : Option String) :
    ∃ t ∈ (ensureTagExists db n c).tags, t.name = n := by
  rcases h : findTagByName db n with _ | t <;> simp only [ensureTagExists, h]
  · exact ⟨⟨db.nextTagId, n, c.getD "#6B7280"⟩, List.mem_append_right _ (by simp), rfl⟩
  · refine ⟨t, List.mem_of_find?_eq_some h, ?_⟩
    have := List.find?_some h
    simpa using this

/-- Every bare-string tag name of the loop body ends up in the tag
table — tag processing really does run, whatever the snippet id. -/
theorem str_tag_created (sid : Option Nat) :
    ∀ (tds : List TagData) (db : DB) (n : String), TagData.str n ∈ tds →
      ∃ t ∈ (tds.foldl (importTagStep sid) db).tags, t.name = n := by
  intro tds
  induction tds with
  | nil => intro db n h; cases h
  | cons td tds ih =>
    intro db n h
    rcases List.mem_cons.mp h with rfl | h'
    · obtain ⟨t, htmem, htn⟩ : ∃ t ∈ (importTagStep sid db (TagData.str n)).tags, t.name = n := by
        simp only [importTagStep]
        obtain ⟨t, htm, htn⟩ := ensure_has_name db n none
        rcases hf : findTagByName (ensureTagExists db n none) n with _ | u <;> simp only [hf]
        · exact ⟨t, htm, htn⟩
        · rw [(insertLinkOrIgnore_frame _ sid _).2.2.1]
          exact ⟨t, htm, htn⟩
      exact ⟨t, tags_mono_fold sid tds htmem, htn⟩
    · exact ih _ n h'

/-! ## Claim C10: duplicate with neither skip nor overwrite -/

/-- C10: with `overwriteExisting = false` and `skipDuplicates = false`, a
record whose (title, content) exactly matches an existing snippet takes no
path at all: `importSingleSnippet` succeeds (so it is NOT reported via the
"already exists" skip outcome) with the JS `snippetId` variable still
undefined (`none`); no snippet row is created, and no snippet, version,
link or favorite row is modified by the record — while its tag processing
still runs against the undefined id (tag rows named by the record are
created). -/
theorem import_duplicate_no_path (db : DB) (r : ImportRecord) (opts : ImportOptions)
    (ho : opts.overwriteExisting = false) (hs : opts.skipDuplicates = false)
    (ht : strTruthy r.title = true) (hc : strTruthy r.content = true)
    (hex : (findSnippetByTitleContent db (r.title.getD "") (r.content.getD "")).isSome = true) :
    ∃ db', importSingleSnippet db r opts = .ok (db', none) ∧
      db'.snippets = db.snippets ∧ db'.versions = db.versions ∧
      db'.snippet_tags = db.snippet_tags ∧ db'.favorites = db.favorites ∧
      ∀ tds n, r.tags = some tds → TagData.str n ∈ tds → ∃ t ∈ db'.tags, t.name = n := by
  obtain ⟨s, hsome⟩ := Option.isSome_iff_exists.mp hex
  simp only [importSingleSnippet, ht, hc, hsome, hs, ho, Bool.not_true, Bool.or_self,
    Bool.and_false, Bool.false_and, Bool.and_true, Bool.true_and, Option.isSome_some,
    Bool.false_or, Bool.or_false, if_neg, Bool.false_eq_true, if_false]
  cases htags : r.tags with
  | none =>
    cases hfav : r.is_favorite with
    | false => exact ⟨db, rfl, rfl, rfl, rfl, rfl, fun tds n he => Option.noConfusion he⟩
    | true => exact ⟨db, rfl, rfl, rfl, rfl, rfl, fun tds n he => Option.noConfusion he⟩
  | some tds =>
    have hlinks := foldl_importTagStep_none_links tds db
    obtain ⟨hsn, hvs, hfa⟩ := foldl_importTagStep_frame none tds db
    cases hfav : r.is_favorite with
    | false =>
      refine ⟨_, rfl, hsn, hvs, hlinks, hfa, ?_⟩
      intro tds' n he hmem
      cases he
      exact str_tag_created none tds db n hmem
    | true =>
      refine ⟨_, rfl, hsn, hvs, hlinks, hfa, ?_⟩
      intro tds' n he hmem
      cases he
      exact str_tag_created none tds db n hmem

/-- Concrete instance of `import_duplicate_no_path`: re-importing the
record ("T", "c") with both flags off over `exDbComma` leaves every
snippet/version/link/favorite row unchanged and reports success with an
undefined id. -/
theorem import_duplicate_no_path_witness :
    ∃ db', importSingleSnippet exDbComma ⟨some "T", some "c", some "python", none, none, false⟩
        ⟨false, false, false⟩ = .ok (db', none) ∧
      db'.snippets = exDbComma.snippets :=
  match import_duplicate_no_path exDbComma
    ⟨some "T", some "c", some "python", none, none, false⟩ ⟨false, false, false⟩
    rfl rfl (by decide) (by decide) (by decide) with
  | ⟨db', hok, hsn, _, _, _, _⟩ => ⟨db', hok, hsn⟩

/-! ## Claim C6: the overwrite path bypasses versioning -/

/-- C6: when a duplicate (exact title+content match) is imported with
`overwriteExisting = true`, the existing snippet is overwritten in place
under its existing id (title and content necessarily unchanged — they are
the duplicate key — language and source taken from the record), and the
overwrite leaves the versions table untouched and the snippet's version
counter unchanged: although the raw UPDATE does pass through the
`save_snippet_version` trigger, the trigger's change condition is false. -/
theorem import_overwrite_no_versioning (db : DB) (r : ImportRecord) (opts : ImportOptions)
    (s : Snippet)
    (hnd : (db.snippets.map Snippet.id).Nodup)
    (ho : opts.overwriteExisting = true)
    (ht : strTruthy r.title = true) (hc : strTruthy r.content = true)
    (hex : findSnippetByTitleContent db (r.title.getD "") (r.content.getD "") = some s) :
    ∃ db', importSingleSnippet db r opts = .ok (db', some s.id) ∧
      db'.versions = db.versions ∧
      db'.snippets.map Snippet.id = db.snippets.map Snippet.id ∧
      findSnippet db' s.id = some (overwritten s s.title s.content
        (jsLangOrPlaintext r.language) (jsOrNullStr r.source) 0) := by
  obtain ⟨heqt, heqc⟩ : s.title = r.title.getD "" ∧ s.content = r.content.getD "" := by
    have := List.find?_some hex
    simpa [Bool.and_eq_true] using this
  have hmem := List.mem_of_find?_eq_some hex
  have hfind : findSnippet db s.id = some s := find_key_of_mem Snippet.id hmem hnd
  have hcond : ¬(s.content ≠ r.content.getD "" ∨ s.title ≠ r.title.getD "") := by
    rw [← heqc, ← heqt]
    simp
  obtain ⟨f1, f2, f3, _, _, _, _, _⟩ := updateSnippetFields_spec hfind (r.title.getD "")
    (r.content.getD "") (jsLangOrPlaintext r.language) (jsOrNullStr r.source)
  rw [if_neg hcond] at f1 f2
  rw [List.append_nil] at f2
  have how : overwritten s (r.title.getD "") (r.content.getD "") (jsLangOrPlaintext r.language)
      (jsOrNullStr r.source) 0 = overwritten s s.title s.content (jsLangOrPlaintext r.language)
      (jsOrNullStr r.source) 0 := by
    rw [← heqt, ← heqc]
  replace f1 := f1.trans (congrArg some how)
  simp only [importSingleSnippet, ht, hc, hex, ho, Bool.not_true, Bool.or_self,
    Bool.and_false, Bool.false_and, Bool.and_true, Bool.true_and, Option.isSome_some,
    Bool.not_false, if_neg, Bool.false_eq_true, if_false, if_true]
  set dbu := updateSnippetFields db s.id (r.title.getD "") (r.content.getD "")
    (jsLangOrPlaintext r.language) (jsOrNullStr r.source) with hdbu
  cases htags : r.tags with
  | none =>
    cases hfav : r.is_favorite with
    | false =>
      obtain ⟨d1, d2, _, _⟩ := deleteFavorite_frame dbu (some s.id)
      exact ⟨_, rfl, d2.trans f2, (congrArg (List.map Snippet.id) d1).trans f3,
        (findSnippet_congr d1 s.id).trans f1⟩
    | true =>
      obtain ⟨d1, d2, _, _⟩ := insertFavoriteOrIgnore_frame dbu (some s.id)
      exact ⟨_, rfl, d2.trans f2, (congrArg (List.map Snippet.id) d1).trans f3,
        (findSnippet_congr d1 s.id).trans f1⟩
  | some tds =>
    obtain ⟨e1, e2, _, _⟩ := deleteLinksFor_frame dbu (some s.id)
    obtain ⟨g1, g2, _⟩ := foldl_importTagStep_frame (some s.id) tds (deleteLinksFor dbu (some s.id))
    cases hfav : r.is_favorite with
    | false =>
      obtain ⟨d1, d2, _, _⟩ := deleteFavorite_frame
        (tds.foldl (importTagStep (some s.id)) (deleteLinksFor dbu (some s.id))) (some s.id)
      exact ⟨_, rfl, (d2.trans (g2.trans e2)).trans f2,
        (congrArg (List.map Snippet.id) (d1.trans (g1.trans e1))).trans f3,
        (findSnippet_congr (d1.trans (g1.trans e1)) s.id).trans f1⟩
    | true =>
      obtain ⟨d1, d2, _, _⟩ := insertFavoriteOrIgnore_frame
        (tds.foldl (importTagStep (some s.id)) (deleteLinksFor dbu (some s.id))) (some s.id)
      exact ⟨_, rfl, (d2.trans (g2.trans e2)).trans f2,
        (congrArg (List.map Snippet.id) (d1.trans (g1.trans e1))).trans f3,
        (findSnippet_congr (d1.trans (g1.trans e1)) s.id).trans f1⟩

/-- Concrete instance of `import_overwrite_no_versioning` on `exDb2`
(one snapshot, version 2): overwriting its snippet with new language and
source leaves the snapshot count and version counter untouched. -/
theorem import_overwrite_no_versioning_witness :
    ∃ db', importSingleSnippet exDb2 ⟨some "A", some "x=2", some "js", some "web", none, false⟩
        ⟨true, true, false⟩ = .ok (db', some 1) ∧
      db'.versions = exDb2.versions :=
  match import_overwrite_no_versioning exDb2
    ⟨some "A", some "x=2", some "js", some "web", none, false⟩ ⟨true, true, false⟩
    ⟨1, "A", "x=2", "python", none, 2, 0⟩ (by decide) rfl (by decide) (by decide) (by decide) with
  | ⟨db', hok, hv, _, _⟩ => ⟨db', hok, hv⟩

/-! ## Claim C4: per-record error isolation in importFromJSON -/

/-- The import fold's ledger is a running total: folding from any starting
ledger equals folding from the empty ledger plus that start. The store
component never depends on the ledger. -/
theorem importFold_shift (opts : ImportOptions) :
    ∀ (rs : List ImportRecord) (db : DB) (res : ImportResults),
      rs.foldl (importStep opts) (db, res) =
        ((rs.foldl (importStep opts) (db, emptyResults)).1,
         ⟨res.success + (rs.foldl (importStep opts) (db, emptyResults)).2.success,
          res.skipped + (rs.foldl (importStep opts) (db, emptyResults)).2.skipped,
          res.errors + (rs.foldl (importStep opts) (db, emptyResults)).2.errors,
          res.details ++ (rs.foldl (importStep opts) (db, emptyResults)).2.details⟩) := by
  intro rs
  induction rs with
  | nil =>
    intro db res
    cases res
    simp [emptyResults]
  | cons r rs ih =>
    intro db res
    obtain ⟨a, b, c, d⟩ := res
    simp only [List.foldl_cons]
    cases hstep : importSingleSnippet db r opts with
    | ok p =>
      have hL : importStep opts (db, ⟨a, b, c, d⟩) r =
          (p.1, ⟨a + 1, b, c, d ++ [importDetailOk r.title]⟩) := by
        simp [importStep, hstep]
      have hR : importStep opts (db, emptyResults) r =
          (p.1, ⟨0 + 1, 0, 0, [] ++ [importDetailOk r.title]⟩) := by
        simp [importStep, hstep, emptyResults]
      rw [hL, hR, ih p.1 ⟨a + 1, b, c, d ++ [importDetailOk r.title]⟩,
        ih p.1 ⟨0 + 1, 0, 0, [] ++ [importDetailOk r.title]⟩]
      simp only [Prod.mk.injEq, ImportResults.mk.injEq, List.append_assoc, List.nil_append]
      refine ⟨trivial, by omega, by omega, by omega, trivial⟩
    | error msg =>
      have hL : importStep opts (db, ⟨a, b, c, d⟩) r =
          (db, ⟨a, b, c + 1, d ++ [importDetailError r.title msg]⟩) := by
        simp [importStep, hstep]
      have hR : importStep opts (db, emptyResults) r =
          (db, ⟨0, 0, 0 + 1, [] ++ [importDetailError r.title msg]⟩) := by
        simp [importStep, hstep, emptyResults]
      rw [hL, hR, ih db ⟨a, b, c + 1, d ++ [importDetailError r.title msg]⟩,
        ih db ⟨0, 0, 0 + 1, [] ++ [importDetailError r.title msg]⟩]
      simp only [Prod.mk.injEq, ImportResults.mk.injEq, List.append_assoc, List.nil_append]
      refine ⟨trivial, by omega, by omega, by omega, trivial⟩

/-- Ledger bookkeeping of a whole import run: one detail entry per record,
successes and errors partition the records, and the skipped counter is
never incremented. -/
theorem importFold_counts (opts : ImportOptions) :
    ∀ (rs : List ImportRecord) (db : DB),
      (rs.foldl (importStep opts) (db, emptyResults)).2.details.length = rs.length ∧
      (rs.foldl (importStep opts) (db, emptyResults)).2.success +
        (rs.foldl (importStep opts) (db, emptyResults)).2.errors = rs.length ∧
      (rs.foldl (importStep opts) (db, emptyResults)).2.skipped = 0 := by
  intro rs
  induction rs with
  | nil => intro db; exact ⟨rfl, rfl, rfl⟩
  | cons r rs ih =>
    intro db
    simp only [List.foldl_cons]
    cases hstep : importSingleSnippet db r opts with
    | ok p =>
      have hR : importStep opts (db, emptyResults) r =
          (p.1, ⟨0 + 1, 0, 0, [] ++ [importDetailOk r.title]⟩) := by
        simp [importStep, hstep, emptyResults]
      rw [hR, importFold_shift opts rs p.1 ⟨0 + 1, 0, 0, [] ++ [importDetailOk r.title]⟩]
      obtain ⟨c1, c2, c3⟩ := ih p.1
      refine ⟨by simp [c1], by simp; omega, by simp [c3]⟩
    | error msg =>
      have hR : importStep opts (db, emptyResults) r =
          (db, ⟨0, 0, 0 + 1, [] ++ [importDetailError r.title msg]⟩) := by
        simp [importStep, hstep, emptyResults]
      rw [hR, importFold_shift opts rs db ⟨0, 0, 0 + 1, [] ++ [importDetailError r.title msg]⟩]
      obtain ⟨c1, c2, c3⟩ := ih db
      refine ⟨by simp [c1], by simp; omega, by simp [c3]⟩

/-- C4: a missing snippets array aborts the whole import before the loop
and the rolled-back store is returned unchanged; a record whose processing
throws is recorded as that record's error ledger entry and processing
continues — the remaining records produce exactly the store and ledger
they would produce alone; every run over a well-formed document yields one
ledger entry per record with successes and errors partitioning them
(nothing is silently dropped). -/
theorem importFromJSON_error_isolation (db : DB) (opts : ImportOptions) :
    (importFromJSON db ⟨none⟩ opts =
      (db, .error "Import failed: Invalid import data format: missing snippets array")) ∧
    (∀ r rs msg, importSingleSnippet db r opts = .error msg →
      (importFromJSON db ⟨some (r :: rs)⟩ opts).1 = (importFromJSON db ⟨some rs⟩ opts).1 ∧
      ∃ res res', (importFromJSON db ⟨some (r :: rs)⟩ opts).2 = .ok res ∧
        (importFromJSON db ⟨some rs⟩ opts).2 = .ok res' ∧
        res.errors = res'.errors + 1 ∧ res.success = res'.success ∧
        res.details = importDetailError r.title msg :: res'.details) ∧
    (∀ rs : List ImportRecord, ∃ res, (importFromJSON db ⟨some rs⟩ opts).2 = .ok res ∧
      res.details.length = rs.length ∧ res.success + res.errors = rs.length ∧
      res.skipped = 0) := by
  refine ⟨rfl, ?_, ?_⟩
  · intro r rs msg herr
    simp only [importFromJSON, List.foldl_cons, importStep, herr]
    rw [importFold_shift opts rs db]
    refine ⟨rfl, _, _, rfl, rfl, ?_, ?_, ?_⟩ <;> simp [emptyResults] <;> omega
  · intro rs
    obtain ⟨c1, c2, c3⟩ := importFold_counts opts rs db
    exact ⟨_, rfl, c1, c2, c3⟩

/-- Concrete instance of `importFromJSON_error_isolation`: over the empty
store, a two-record document whose first record lacks a title yields an
error entry for it, and the second record is still imported. -/
theorem importFromJSON_error_isolation_witness :
    (importFromJSON DB.empty ⟨none⟩ ⟨false, true, false⟩).2 =
      .error "Import failed: Invalid import data format: missing snippets array" ∧
    (importFromJSON DB.empty
      ⟨some [⟨none, some "c", none, none, none, false⟩,
             ⟨some "B", some "d", none, none, none, false⟩]⟩ ⟨false, true, false⟩).1 =
      (importFromJSON DB.empty
        ⟨some [⟨some "B", some "d", none, none, none, false⟩]⟩ ⟨false, true, false⟩).1 := by
  constructor
  · rw [(importFromJSON_error_isolation DB.empty ⟨false, true, false⟩).1]
  · exact ((importFromJSON_error_isolation DB.empty ⟨false, true, false⟩).2.1
      ⟨none, some "c", none, none, none, false⟩
      [⟨some "B", some "d", none, none, none, false⟩]
      "Missing required fields: title or content" rfl).1

/-! ## Claim C5: importing the same document twice with default options -/

/-- Equal snippet tables look the same to the duplicate probe. -/
theorem findPair_congr {db1 db2 : DB} (h : db1.snippets = db2.snippets) (t c : String) :
    findSnippetByTitleContent db1 t c = findSnippetByTitleContent db2 t c := by
  unfold findSnippetByTitleContent
  rw [h]

/-- `find?` skips over an unsuccessful prefix. -/
theorem find?_append_of_none {α : Type} {p : α → Bool} {l₁ : List α} (l₂ : List α)
    (h : l₁.find? p = none) : (l₁ ++ l₂).find? p = l₂.find? p := by
  induction l₁ with
  | nil => rfl
  | cons a l ih =>
    rcases hb : p a with _ | _
    · rw [List.find?_cons_of_neg _ (by simp [hb])] at h
      rw [List.cons_append, List.find?_cons_of_neg _ (by simp [hb])]
      exact ih h
    · rw [List.find?_cons_of_pos _ hb] at h
      cases h

/-- The tag/favorite processing after a record's write phase never touches
the snippet table (whatever the snippet id). -/
theorem importPost_snippets (db0 : DB) (r : ImportRecord) (sid : Option Nat) :
    (if r.is_favorite then
        insertFavoriteOrIgnore (match r.tags with
          | none => db0
          | some tds => tds.foldl (importTagStep sid) (deleteLinksFor db0 sid)) sid
      else
        deleteFavorite (match r.tags with
          | none => db0
          | some tds => tds.foldl (importTagStep sid) (deleteLinksFor db0 sid)) sid).snippets
      = db0.snippets := by
  cases htags : r.tags with
  | none =>
    cases r.is_favorite with
    | false =>
      simp only [Bool.false_eq_true, if_false]
      exact (deleteFavorite_frame db0 sid).1
    | true =>
      simp only [if_true]
      exact (insertFavoriteOrIgnore_frame db0 sid).1
  | some tds =>
    cases r.is_favorite with
    | false =>
      simp only [Bool.false_eq_true, if_false]
      exact ((deleteFavorite_frame _ sid).1).trans
        ((foldl_importTagStep_frame sid tds _).1.trans (deleteLinksFor_frame db0 sid).1)
    | true =>
      simp only [if_true]
      exact ((insertFavoriteOrIgnore_frame _ sid).1).trans
        ((foldl_importTagStep_frame sid tds _).1.trans (deleteLinksFor_frame db0 sid).1)

/-- With overwriting disabled, a successful record import only ever
appends snippet rows: every (title, content) pair already present stays
present, and the record's own pair is present afterwards. -/
theorem importSingle_pair_mono {db db' : DB} {r : ImportRecord} {opts : ImportOptions}
    {sid : Option Nat} (ho : opts.overwriteExisting = false)
    (hok : importSingleSnippet db r opts = .ok (db', sid)) :
    (∀ t c, (findSnippetByTitleContent db t c).isSome = true →
      (findSnippetByTitleContent db' t c).isSome = true) ∧
    (findSnippetByTitleContent db' (r.title.getD "") (r.content.getD "")).isSome = true := by
  simp only [importSingleSnippet] at hok
  by_cases h1 : (!strTruthy r.title || !strTruthy r.content) = true
  · rw [if_pos h1] at hok
    cases hok
  · rw [if_neg h1] at hok
    by_cases h2 : ((findSnippetByTitleContent db (r.title.getD "") (r.content.getD "")).isSome &&
        opts.skipDuplicates && !opts.overwriteExisting) = true
    · rw [if_pos h2] at hok
      cases hok
    · rw [if_neg h2] at hok
      rcases hex : findSnippetByTitleContent db (r.title.getD "") (r.content.getD "") with _ | s <;>
        rw [hex] at hok <;> simp only [ho, Bool.false_eq_true, if_false] at hok
      · -- create path: one appended row, then snippet-preserving post-processing
        obtain ⟨hdb, -⟩ := by simpa using hok
        have hsn : db'.snippets = db.snippets ++
            [⟨db.nextSnippetId, r.title.getD "", r.content.getD "",
              jsLangOrPlaintext r.language, jsOrNullStr r.source, 1, db.clock⟩] := by
          rw [← hdb]
          exact importPost_snippets _ r none
        constructor
        · intro t c hpair
          unfold findSnippetByTitleContent at hpair ⊢
          rw [hsn, Option.isSome_iff_exists]
          rw [Option.isSome_iff_exists] at hpair
          obtain ⟨x, hx⟩ := hpair
          exact ⟨x, find?_append_some _ hx⟩
        · unfold findSnippetByTitleContent
          rw [hsn, Option.isSome_iff_exists]
          rcases hfound : db.snippets.find?
              (fun s => s.title == r.title.getD "" && s.content == r.content.getD "") with _ | x
          · refine ⟨⟨db.nextSnippetId, r.title.getD "", r.content.getD "",
              jsLangOrPlaintext r.language, jsOrNullStr r.source, 1, db.clock⟩, ?_⟩
            rw [find?_append_of_none _ hfound]
            simp [List.find?]
          · exact ⟨x, find?_append_some _ hfound⟩
      · -- duplicate, neither skip nor overwrite: the snippet table is untouched
        obtain ⟨hdb, -⟩ := by simpa using hok
        have hsn : db'.snippets = db.snippets := by
          rw [← hdb]
          exact importPost_snippets db r none
        refine ⟨?_, ?_⟩
        · intro t c hpair
          rw [findPair_congr hsn t c]
          exact hpair
        · rw [findPair_congr hsn (r.title.getD "") (r.content.getD ""), hex]
          rfl

/-- A record of an import run fails with truthy title and content only on
the duplicate-skip policy: the pair already exists and the message is
exactly the "already exists" one. -/
theorem importSingle_error_cases {db : DB} {r : ImportRecord} {opts : ImportOptions} {msg : String}
    (herr : importSingleSnippet db r opts = .error msg)
    (ht : strTruthy r.title = true) (hc : strTruthy r.content = true) :
    (findSnippetByTitleContent db (r.title.getD "") (r.content.getD "")).isSome = true ∧
    msg = "Snippet already exists (skipped)" := by
  simp only [importSingleSnippet] at herr
  rw [if_neg (by simp [ht, hc])] at herr
  by_cases h2 : ((findSnippetByTitleContent db (r.title.getD "") (r.content.getD "")).isSome &&
      opts.skipDuplicates && !opts.overwriteExisting) = true
  · rw [if_pos h2] at herr
    have hmsg : "Snippet already exists (skipped)" = msg := by simpa using herr
    refine ⟨?_, hmsg.symm⟩
    simp only [Bool.and_eq_true] at h2
    exact h2.1.1
  · rw [if_neg h2] at herr
    cases herr

/-- Pairs survive a whole import fold when overwriting is disabled. -/
theorem fold_pair_mono (opts : ImportOptions) (ho : opts.overwriteExisting = false) :
    ∀ (rs : List ImportRecord) (db : DB) (res : ImportResults) (t c : String),
      (findSnippetByTitleContent db t c).isSome = true →
      (findSnippetByTitleContent (rs.foldl (importStep opts) (db, res)).1 t c).isSome = true := by
  intro rs
  induction rs with
  | nil => exact fun db res t c h => h
  | cons r rs ih =>
    intro db res t c h
    simp only [List.foldl_cons]
    cases hstep : importSingleSnippet db r opts with
    | ok p =>
      simp only [importStep, hstep]
      exact ih p.1 _ t c ((importSingle_pair_mono ho hstep).1 t c h)
    | error msg =>
      simp only [importStep, hstep]
      exact ih db _ t c h

/-- After one import run every truthy record's (title, content) pair is
present in the resulting store. -/
theorem fold_pairs_present (opts : ImportOptions) (ho : opts.overwriteExisting = false) :
    ∀ (rs : List ImportRecord) (db : DB) (res : ImportResults) (r : ImportRecord),
      r ∈ rs → strTruthy r.title = true → strTruthy r.content = true →
      (findSnippetByTitleContent (rs.foldl (importStep opts) (db, res)).1
        (r.title.getD "") (r.content.getD "")).isSome = true := by
  intro rs
  induction rs with
  | nil => intro db res r hr; cases hr
  | cons r0 rs ih =>
    intro db res r hr ht hc
    simp only [List.foldl_cons]
    rcases List.mem_cons.mp hr with rfl | hr'
    · cases hstep : importSingleSnippet db r opts with
      | ok p =>
        simp only [importStep, hstep]
        exact fold_pair_mono opts ho rs p.1 _ _ _ ((importSingle_pair_mono ho hstep).2)
      | error msg =>
        simp only [importStep, hstep]
        exact fold_pair_mono opts ho rs db _ _ _ ((importSingle_error_cases hstep ht hc).1)
    · cases hstep : importSingleSnippet db r0 opts with
      | ok p =>
        simp only [importStep, hstep]
        exact ih p.1 _ r hr' ht hc
      | error msg =>
        simp only [importStep, hstep]
        exact ih db _ r hr' ht hc

/-- When every record's pair already exists and the default policy is in
force, the fold changes nothing and ledgers every record as the
"already exists" error. -/
theorem fold_all_dup (opts : ImportOptions) (ho : opts.overwriteExisting = false)
    (hsk : opts.skipDuplicates = true) :
    ∀ (rs : List ImportRecord) (db : DB) (res : ImportResults),
      (∀ r ∈ rs, strTruthy r.title = true ∧ strTruthy r.content = true ∧
        (findSnippetByTitleContent db (r.title.getD "") (r.content.getD "")).isSome = true) →
      rs.foldl (importStep opts) (db, res) =
        (db, ⟨res.success, res.skipped, res.errors + rs.length,
          res.details ++ rs.map
            (fun r => importDetailError r.title "Snippet already exists (skipped)")⟩) := by
  intro rs
  induction rs with
  | nil =>
    intro db res h
    cases res
    simp
  | cons r rs ih =>
    intro db res h
    obtain ⟨ht, hc, hp⟩ := h r (List.mem_cons_self r rs)
    have herr : importSingleSnippet db r opts = .error "Snippet already exists (skipped)" := by
      simp only [importSingleSnippet]
      rw [if_neg (by simp [ht, hc]), if_pos (by simp [hp, hsk, ho])]
    simp only [List.foldl_cons, importStep, herr]
    rw [ih db _ (fun x hx => h x (List.mem_cons_of_mem r hx))]
    simp only [List.map_cons, List.length_cons, List.append_assoc, List.singleton_append]
    have he : res.errors + 1 + rs.length = res.errors + (rs.length + 1) := by omega
    rw [he]

/-- C5: importing the same document twice under the default options
(`skipDuplicates = true`, `overwriteExisting = false`): the second run
leaves the store exactly as the first run left it (zero new snippets —
nothing at all changes), every record of the second run is ledgered as an
error whose message is exactly "Snippet already exists (skipped)" (which
contains "already exists"), and the skipped counter is 0 on both runs. -/
theorem import_idempotent_defaults (db : DB) (rs : List ImportRecord)
    (h : ∀ r ∈ rs, strTruthy r.title = true ∧ strTruthy r.content = true) :
    ∃ db1 res1 res2,
      importFromJSON db ⟨some rs⟩ ⟨false, true, false⟩ = (db1, .ok res1) ∧
      importFromJSON db1 ⟨some rs⟩ ⟨false, true, false⟩ = (db1, .ok res2) ∧
      res1.skipped = 0 ∧ res2.skipped = 0 ∧ res2.success = 0 ∧ res2.errors = rs.length ∧
      res2.details = rs.map
        (fun r => importDetailError r.title "Snippet already exists (skipped)") := by
  have hpairs : ∀ r ∈ rs, strTruthy r.title = true ∧ strTruthy r.content = true ∧
      (findSnippetByTitleContent
        (rs.foldl (importStep ⟨false, true, false⟩) (db, emptyResults)).1
        (r.title.getD "") (r.content.getD "")).isSome = true := by
    intro r hr
    exact ⟨(h r hr).1, (h r hr).2,
      fold_pairs_present ⟨false, true, false⟩ rfl rs db emptyResults r hr (h r hr).1 (h r hr).2⟩
  have hrun2 := fold_all_dup ⟨false, true, false⟩ rfl rfl rs
    (rs.foldl (importStep ⟨false, true, false⟩) (db, emptyResults)).1 emptyResults hpairs
  refine ⟨(rs.foldl (importStep ⟨false, true, false⟩) (db, emptyResults)).1,
    (rs.foldl (importStep ⟨false, true, false⟩) (db, emptyResults)).2,
    ⟨emptyResults.success, emptyResults.skipped, emptyResults.errors + rs.length,
      emptyResults.details ++ rs.map
        (fun r => importDetailError r.title "Snippet already exists (skipped)")⟩,
    rfl, ?_, ?_, rfl, rfl, ?_, ?_⟩
  · simp only [importFromJSON, hrun2]
  · exact (importFold_counts ⟨false, true, false⟩ rs db).2.2
  · simp [emptyResults]
  · simp [emptyResults]

/-- Concrete instance of `import_idempotent_defaults`: a one-record
document imported twice into the empty store leaves the store of the
first run untouched. -/
theorem import_idempotent_defaults_witness :
    ∃ db1 res1 res2,
      importFromJSON DB.empty ⟨some [⟨some "N", some "body", some "js", none, none, false⟩]⟩
        ⟨false, true, false⟩ = (db1, .ok res1) ∧
      importFromJSON db1 ⟨some [⟨some "N", some "body", some "js", none, none, false⟩]⟩
        ⟨false, true, false⟩ = (db1, .ok res2) ∧
      res1.skipped = 0 ∧ res2.skipped = 0 ∧ res2.success = 0 ∧ res2.errors = 1 ∧
      res2.details = [importDetailError (some "N") "Snippet already exists (skipped)"] := by
  obtain ⟨db1, res1, res2, h1, h2, h3, h4, h5, h6, h7⟩ :=
    import_idempotent_defaults DB.empty [⟨some "N", some "body", some "js", none, none, false⟩]
      (by intro r hr; rw [List.mem_singleton] at hr; subst hr; exact ⟨rfl, rfl⟩)
  exact ⟨db1, res1, res2, h1, h2, h3, h4, h5, h6, h7⟩

/-! ## Claim C1: the versioning law -/

/-- Appending a strictly larger version number sorts to the front. -/
theorem sortDescByVN_append_max {l : List VersionRow} {v : VersionRow}
    (h : ∀ w ∈ l, w.version_number < v.version_number) :
    sortDescByVN (l ++ [v]) = v :: sortDescByVN l := by
  induction l with
  | nil => rfl
  | cons a l ih =>
    have ha := h a (List.mem_cons_self a l)
    have hrest : ∀ w ∈ l, w.version_number < v.version_number :=
      fun w hw => h w (List.mem_cons_of_mem a hw)
    show insertDescByVN a (sortDescByVN (l ++ [v])) = v :: insertDescByVN a (sortDescByVN l)
    rw [ih hrest, insertDescByVN, if_pos (by omega)]

/-- `manageTagStep` touches only the tag and link tables. -/
theorem manageTagStep_frame (i : Nat) (db : DB) (name : String) :
    (manageTagStep i db name).snippets = db.snippets ∧
    (manageTagStep i db name).versions = db.versions ∧
    (manageTagStep i db name).nextVersionId = db.nextVersionId := by
  simp only [manageTagStep]
  rcases hf : findTagByName db name with _ | t <;> simp only [hf]
  · have hins : ∀ (d : DB) (x : Nat),
        (insertLinkOrIgnore d (some i) x).snippets = d.snippets ∧
        (insertLinkOrIgnore d (some i) x).versions = d.versions ∧
        (insertLinkOrIgnore d (some i) x).nextVersionId = d.nextVersionId := by
      intro d x
      simp only [insertLinkOrIgnore]
      by_cases hm : (i, x) ∈ d.snippet_tags
      · rw [if_pos hm]
        exact ⟨rfl, rfl, rfl⟩
      · rw [if_neg hm]
        exact ⟨rfl, rfl, rfl⟩
    exact hins _ _
  · have hins : ∀ (d : DB) (x : Nat),
        (insertLinkOrIgnore d (some i) x).snippets = d.snippets ∧
        (insertLinkOrIgnore d (some i) x).versions = d.versions ∧
        (insertLinkOrIgnore d (some i) x).nextVersionId = d.nextVersionId := by
      intro d x
      simp only [insertLinkOrIgnore]
      by_cases hm : (i, x) ∈ d.snippet_tags
      · rw [if_pos hm]
        exact ⟨rfl, rfl, rfl⟩
      · rw [if_neg hm]
        exact ⟨rfl, rfl, rfl⟩
    exact hins _ _

/-- `manageTags` touches only the tag and link tables. -/
theorem manageTags_frame (db : DB) (i : Nat) (tags : Option (List String)) :
    (manageTags db i tags).snippets = db.snippets ∧
    (manageTags db i tags).versions = db.versions ∧
    (manageTags db i tags).nextVersionId = db.nextVersionId := by
  cases tags with
  | none => exact ⟨rfl, rfl, rfl⟩
  | some names =>
    simp only [manageTags]
    have hfold : ∀ (ns : List String) (d : DB),
        ((ns.foldl (manageTagStep i) d)).snippets = d.snippets ∧
        ((ns.foldl (manageTagStep i) d)).versions = d.versions ∧
        ((ns.foldl (manageTagStep i) d)).nextVersionId = d.nextVersionId := by
      intro ns
      induction ns with
      | nil => exact fun d => ⟨rfl, rfl, rfl⟩
      | cons nm ns ih =>
        intro d
        obtain ⟨a, b, c⟩ := manageTagStep_frame i d nm
        obtain ⟨a2, b2, c2⟩ := ih (manageTagStep i d nm)
        exact ⟨a2.trans a, b2.trans b, c2.trans c⟩
    obtain ⟨a, b, c⟩ := hfold names (deleteLinksFor db (some i))
    exact ⟨a, b, c⟩

/-- PUT /api/snippets/:id, in equational form: under passing validation and
an existing row it is exactly the triggered UPDATE followed by tag
management. -/
theorem updateSnippetRoute_eq {db : DB} {i : Nat} {s : Snippet}
    (h : findSnippet db i = some s) {t c l : String} (src : Option String)
    (tags : Option (List String)) (hg : ¬(t = "" ∨ c = "" ∨ l = "")) :
    updateSnippetRoute db i t c l src tags =
      .ok (manageTags (updateSnippetFields db i (jsTrim t) c (jsTrim l)
        (jsOrNullStr (src.map jsTrim))) i tags) := by
  simp only [updateSnippetRoute, h]
  rw [if_neg hg]

/-- The versioning invariant carried along an update chain: if the live
row is at version `k + 1` with snapshot numbers exactly `1..k` (in table
order, and sorted-descending being the reverse), then after the chain the
row is at `k + 1 + N` and the snapshot numbers are exactly `1..k+N`. -/
theorem updSeq_invariant {i : Nat} :
    ∀ {us : List UpdArgs} {db db' : DB}, UpdSeq i db us db' →
    ∀ {s : Snippet} {k : Nat}, findSnippet db i = some s → s.version = k + 1 →
    (versionRowsFor db i).map VersionRow.version_number = List.range' 1 k →
    sortDescByVN (versionRowsFor db i) = (versionRowsFor db i).reverse →
    ∃ s', findSnippet db' i = some s' ∧ s'.version = k + 1 + us.length ∧
      (versionRowsFor db' i).map VersionRow.version_number = List.range' 1 (k + us.length) ∧
      sortDescByVN (versionRowsFor db' i) = (versionRowsFor db' i).reverse := by
  intro us
  induction us with
  | nil =>
    intro db db' hseq s k hfind hver hmap hsort
    cases hseq
    exact ⟨s, hfind, by simpa using hver, by simpa using hmap, hsort⟩
  | cons u us ih =>
    intro db db' hseq s k hfind hver hmap hsort
    cases hseq with
    | cons hok hchange hrest =>
      rename_i db1
      by_cases hg : (u.title = "" ∨ u.content = "" ∨ u.language = "")
      · simp only [updateSnippetRoute, if_pos hg] at hok
        cases hok
      · rw [updateSnippetRoute_eq hfind u.source u.tags hg] at hok
        have hdb1 : db1 = manageTags (updateSnippetFields db i (jsTrim u.title) u.content
            (jsTrim u.language) (jsOrNullStr (u.source.map jsTrim))) i u.tags := by
          simpa using hok.symm
        obtain ⟨s0, hs0, hdiff⟩ := hchange
        have hs0s : s = s0 := by
          have h2 := hfind.symm.trans hs0
          simpa using h2
        subst hs0s
        have hcond : s.content ≠ u.content ∨ s.title ≠ jsTrim u.title := by
          rcases hdiff with h1 | h2
          · exact Or.inr (fun he => h1 he.symm)
          · exact Or.inl (fun he => h2 he.symm)
        obtain ⟨f1, f2, -, -, -, -, -, -⟩ := updateSnippetFields_spec hfind (jsTrim u.title)
          u.content (jsTrim u.language) (jsOrNullStr (u.source.map jsTrim))
        rw [if_pos hcond] at f1 f2
        obtain ⟨m1, m2, -⟩ := manageTags_frame (updateSnippetFields db i (jsTrim u.title)
          u.content (jsTrim u.language) (jsOrNullStr (u.source.map jsTrim))) i u.tags
        have hsid : s.id = i := by simpa using List.find?_some hfind
        have hfind1 : findSnippet db1 i =
            some (overwritten s (jsTrim u.title) u.content (jsTrim u.language)
              (jsOrNullStr (u.source.map jsTrim)) 1) := by
          rw [hdb1]
          exact (findSnippet_congr m1 i).trans f1
        have hvers1 : db1.versions = db.versions ++
            [⟨db.nextVersionId, s.id, s.title, s.content, s.language, s.source, s.version⟩] := by
          rw [hdb1]
          exact m2.trans f2
        have hrows1 : versionRowsFor db1 i = versionRowsFor db i ++
            [⟨db.nextVersionId, s.id, s.title, s.content, s.language, s.source, s.version⟩] := by
          unfold versionRowsFor
          rw [hvers1, List.filter_append]
          congr 1
          simp [hsid]
        have hmap1 : (versionRowsFor db1 i).map VersionRow.version_number =
            List.range' 1 (k + 1) := by
          rw [hrows1, List.map_append, hmap, List.range'_concat]
          simp [hver, Nat.add_comm]
        have hsort1 : sortDescByVN (versionRowsFor db1 i) = (versionRowsFor db1 i).reverse := by
          rw [hrows1]
          rw [sortDescByVN_append_max, hsort, List.reverse_append]
          · simp
          · intro w hw
            have : w.version_number ∈ List.range' 1 k := by
              rw [← hmap]
              exact List.mem_map_of_mem _ hw
            rw [List.mem_range'_1] at this
            simp only [hver]
            omega
        obtain ⟨s', hs', hv', hm', hsrt'⟩ := ih hrest hfind1 (k := k + 1)
          (by simp [overwritten, hver]) hmap1 hsort1
        refine ⟨s', hs', by simp only [List.length_cons]; omega, ?_, hsrt'⟩
        simp only [List.length_cons]
        rw [show k + (us.length + 1) = k + 1 + us.length by omega]
        exact hm'

/-- C1: every successful PUT update on an existing snippet that changes the
stored title or content bumps the live `version` by exactly 1 and appends
exactly one snapshot holding the prior title, content, language, source and
the prior version number, while an update changing neither leaves `version`
and the `versions` table untouched; consequently, starting from a snippet at
version 1 with no snapshots, after a chain of N content- or title-changing
updates `listVersions` returns exactly N entries whose version numbers are
N, N-1, ..., 1 (descending) and the live `version` equals 1 + N. -/
theorem update_versioning_law :
    (∀ (db : DB) (i : Nat) (s : Snippet) (t c l : String) (src : Option String)
      (tags : Option (List String)) (db1 : DB),
      findSnippet db i = some s →
      updateSnippetRoute db i t c l src tags = .ok db1 →
      ((s.content ≠ c ∨ s.title ≠ jsTrim t) →
        (∃ s', findSnippet db1 i = some s' ∧ s'.version = s.version + 1) ∧
        db1.versions = db.versions ++
          [⟨db.nextVersionId, s.id, s.title, s.content, s.language, s.source, s.version⟩]) ∧
      (¬(s.content ≠ c ∨ s.title ≠ jsTrim t) →
        (∃ s', findSnippet db1 i = some s' ∧ s'.version = s.version) ∧
        db1.versions = db.versions)) ∧
    (∀ (db db' : DB) (i : Nat) (s : Snippet) (us : List UpdArgs),
      findSnippet db i = some s → s.version = 1 → versionRowsFor db i = [] →
      UpdSeq i db us db' →
      (listVersions db' i).length = us.length ∧
      (listVersions db' i).map VersionRow.version_number =
        (List.range' 1 us.length).reverse ∧
      ∃ s', findSnippet db' i = some s' ∧ s'.version = 1 + us.length) := by
  constructor
  · intro db i s t c l src tags db1 hfind hok
    by_cases hg : (t = "" ∨ c = "" ∨ l = "")
    · rw [updateSnippetRoute, if_pos hg] at hok
      cases hok
    · rw [updateSnippetRoute_eq hfind src tags hg] at hok
      have hdb1 : db1 = manageTags (updateSnippetFields db i (jsTrim t) c (jsTrim l)
          (jsOrNullStr (src.map jsTrim))) i tags := by
        simpa using hok.symm
      obtain ⟨f1, f2, -, -, -, -, -, -⟩ := updateSnippetFields_spec hfind (jsTrim t) c (jsTrim l)
        (jsOrNullStr (src.map jsTrim))
      obtain ⟨m1, m2, -⟩ := manageTags_frame (updateSnippetFields db i (jsTrim t) c (jsTrim l)
        (jsOrNullStr (src.map jsTrim))) i tags
      constructor
      · intro hchg
        rw [if_pos hchg] at f1 f2
        refine ⟨⟨overwritten s (jsTrim t) c (jsTrim l) (jsOrNullStr (src.map jsTrim)) 1,
          ?_, by simp [overwritten]⟩, ?_⟩
        · rw [hdb1]
          exact (findSnippet_congr m1 i).trans f1
        · rw [hdb1]
          exact m2.trans f2
      · intro hnchg
        rw [if_neg hnchg] at f1 f2
        refine ⟨⟨overwritten s (jsTrim t) c (jsTrim l) (jsOrNullStr (src.map jsTrim)) 0,
          ?_, by simp [overwritten]⟩, ?_⟩
        · rw [hdb1]
          exact (findSnippet_congr m1 i).trans f1
        · rw [hdb1, m2, f2, List.append_nil]
  · intro db db' i s us hfind hver hrows hseq
    obtain ⟨s', hs', hv', hm', hsrt'⟩ := updSeq_invariant hseq (k := 0) hfind (by omega)
      (by rw [hrows]; rfl) (by rw [hrows]; rfl)
    have hlen : (versionRowsFor db' i).length = us.length := by
      have h2 := congrArg List.length hm'
      simpa using h2
    refine ⟨?_, ?_, s', hs', by omega⟩
    · simp only [listVersions]
      rw [hsrt', List.length_reverse, hlen]
    · simp only [listVersions]
      rw [hsrt', List.map_reverse, hm']
      simp

/-- Witness for C1: creating `"A"`/`"x=1"` and updating the content to
`"x=2"` yields one snapshot, descending version list `[1]` and live
version 2; the single-update clause adds exactly the prior-state snapshot. -/
theorem update_versioning_law_witness :
    ((listVersions exDb2 1).length = 1 ∧
      (listVersions exDb2 1).map VersionRow.version_number = (List.range' 1 1).reverse ∧
      ∃ s', findSnippet exDb2 1 = some s' ∧ s'.version = 1 + 1) ∧
    exDb2.versions = exDb1.versions ++
      [⟨exDb1.nextVersionId, 1, "A", "x=1", "python", none, 1⟩] := by
  have hb := update_versioning_law.2 exDb1 exDb2 1 ⟨1, "A", "x=1", "python", none, 1, 0⟩
    [⟨"A", "x=2", "python", none, none⟩]
    (by decide) (by decide) (by decide)
    (UpdSeq.cons (u := ⟨"A", "x=2", "python", none, none⟩) (by rfl)
      ⟨⟨1, "A", "x=1", "python", none, 1, 0⟩, by decide, by decide⟩ (UpdSeq.nil _))
  have ha := update_versioning_law.1 exDb1 1 ⟨1, "A", "x=1", "python", none, 1, 0⟩
    "A" "x=2" "python" none none exDb2 (by decide) (by rfl)
  exact ⟨hb, (ha.1 (by decide)).2⟩

/-! ## Claim C7: the export/import round trip -/

/-- `splitOnChar` never returns the empty list. -/
theorem splitOnChar_ne_nil (sep : Char) : ∀ (l : List Char), splitOnChar sep l ≠ [] := by
  intro l
  induction l with
  | nil => simp [splitOnChar]
  | cons c cs ih =>
    rw [splitOnChar]
    rcases h : splitOnChar sep cs with _ | ⟨h1, t⟩
    · simp
    · by_cases hc : c = sep <;> simp [hc]

/-- Splitting a separator-free list is the identity. -/
theorem splitOnChar_of_not_mem {sep : Char} : ∀ {l : List Char}, sep ∉ l →
    splitOnChar sep l = [l] := by
  intro l
  induction l with
  | nil => exact fun _ => rfl
  | cons c cs ih =>
    intro h
    have hc : c ≠ sep := fun he => h (he ▸ List.mem_cons_self c cs)
    have hcs : sep ∉ cs := fun hm => h (List.mem_cons_of_mem c hm)
    rw [splitOnChar, ih hcs]
    simp [hc]

/-- Splitting cuts at the first separator when the prefix is
separator-free. -/
theorem splitOnChar_append {sep : Char} : ∀ {l : List Char}, sep ∉ l →
    ∀ (rest : List Char), splitOnChar sep (l ++ sep :: rest) = l :: splitOnChar sep rest := by
  intro l
  induction l with
  | nil =>
    intro _ rest
    show splitOnChar sep (sep :: rest) = [] :: splitOnChar sep rest
    rw [splitOnChar]
    rcases h : splitOnChar sep rest with _ | ⟨h1, t⟩
    · exact absurd h (splitOnChar_ne_nil sep rest)
    · simp
  | cons c cs ih =>
    intro h rest
    have hc : c ≠ sep := fun he => h (he ▸ List.mem_cons_self c cs)
    have hcs : sep ∉ cs := fun hm => h (List.mem_cons_of_mem c hm)
    show splitOnChar sep (c :: (cs ++ sep :: rest)) = (c :: cs) :: splitOnChar sep rest
    rw [splitOnChar, ih hcs rest]
    simp [hc]

/-- The character data of the `intercalate` accumulator loop. -/
theorem intercalate_go_data (s : String) : ∀ (l : List String) (acc : String),
    (String.intercalate.go acc s l).data =
      acc.data ++ (l.map (fun x => s.data ++ x.data)).flatten := by
  intro l
  induction l with
  | nil =>
    intro acc
    rw [String.intercalate.go]
    simp
  | cons a l ih =>
    intro acc
    rw [String.intercalate.go, ih]
    simp [String.data_append, List.append_assoc]

/-- Splitting a comma-joined list of comma-free parts on commas recovers
the parts (as `splitOnChar` sees it). -/
theorem splitOnChar_intercalate :
    ∀ (l : List String) (a : List Char), (',' ∉ a) → (∀ x ∈ l, ',' ∉ x.data) →
      splitOnChar ',' (a ++ (l.map (fun x => ',' :: x.data)).flatten) =
        a :: l.map String.data := by
  intro l
  induction l with
  | nil =>
    intro a ha _
    simp only [List.map_nil, List.flatten_nil, List.append_nil]
    exact splitOnChar_of_not_mem ha
  | cons x l ih =>
    intro a ha hl
    have hx : ',' ∉ x.data := hl x (List.mem_cons_self x l)
    have hl' : ∀ y ∈ l, ',' ∉ y.data := fun y hy => hl y (List.mem_cons_of_mem x hy)
    show splitOnChar ',' (a ++ ',' :: (x.data ++ (l.map (fun y => ',' :: y.data)).flatten)) =
      a :: x.data :: l.map String.data
    rw [splitOnChar_append ha, ih x.data hx hl']

/-- `jsSplit` undoes `String.intercalate ","` on nonempty comma-free
parts. -/
theorem jsSplit_intercalate (a : String) (l : List String)
    (ha : ',' ∉ a.data) (hl : ∀ x ∈ l, ',' ∉ x.data) :
    jsSplit ',' (String.intercalate "," (a :: l)) = a :: l := by
  have hdata : (String.intercalate "," (a :: l)).data =
      a.data ++ (l.map (fun x => ',' :: x.data)).flatten := by
    show (String.intercalate.go a "," l).data = _
    rw [intercalate_go_data]
    congr 2
  simp only [jsSplit, hdata, splitOnChar_intercalate l a.data ha hl, List.map_cons, List.map_map]
  exact congrArg₂ List.cons rfl
    ((List.map_congr_left (fun x _ => rfl)).trans (List.map_id l))

/-- Equal images under `map` give a pointwise `Forall₂` relation. -/
theorem forall₂_of_map_eq {α β γ : Type} {f : α → γ} {g : β → γ} :
    ∀ {l₁ : List α} {l₂ : List β}, l₁.map f = l₂.map g →
      List.Forall₂ (fun a b => f a = g b) l₁ l₂ := by
  intro l₁
  induction l₁ with
  | nil =>
    intro l₂ h
    cases l₂ with
    | nil => exact List.Forall₂.nil
    | cons b l₂ => simp at h
  | cons a l₁ ih =>
    intro l₂ h
    cases l₂ with
    | nil => simp at h
    | cons b l₂ =>
      rw [List.map_cons, List.map_cons] at h
      exact List.Forall₂.cons (List.head_eq_of_cons_eq h) (ih (List.tail_eq_of_cons_eq h))

/-- A pointwise relation transports `map` across `Forall₂`. -/
theorem map_eq_of_forall₂ {α β γ : Type} {R : α → β → Prop} {f : α → γ} {g : β → γ}
    (h : ∀ a b, R a b → f a = g b) :
    ∀ {l₁ : List α} {l₂ : List β}, List.Forall₂ R l₁ l₂ → l₁.map f = l₂.map g := by
  intro l₁ l₂ hf
  induction hf with
  | nil => rfl
  | cons hab _ ih => simp only [List.map_cons, h _ _ hab, ih]

/-- A totally successful `filterMap` relates input and output pointwise. -/
theorem filterMap_forall₂ {α β : Type} {f : α → Option β} {R : α → β → Prop} :
    ∀ {l : List α}, (∀ a ∈ l, ∃ b, f a = some b ∧ R a b) →
      List.Forall₂ R l (l.filterMap f) := by
  intro l
  induction l with
  | nil => exact fun _ => List.Forall₂.nil
  | cons a l ih =>
    intro h
    obtain ⟨b, hb, hR⟩ := h a (List.mem_cons_self a l)
    rw [List.filterMap_cons, hb]
    exact List.Forall₂.cons hR (ih (fun x hx => h x (List.mem_cons_of_mem a hx)))

/-- `x || null` is the identity away from `some ""`. -/
theorem jsOrNullStr_of_ne {o : Option String} (h : o ≠ some "") : jsOrNullStr o = o := by
  unfold jsOrNullStr
  split
  · exact absurd rfl h
  · rfl

/-- `language || 'plaintext'` is the identity on nonempty languages. -/
theorem jsLangOrPlaintext_of_ne {x : String} (h : x ≠ "") :
    jsLangOrPlaintext (some x) = x := by
  simp only [jsLangOrPlaintext]
  rw [if_neg h]

/-- The keyed `UPDATE` map is the identity when no row matches. -/
theorem map_update_of_not_mem {l : List Snippet} {s : Snippet}
    (h : ∀ r ∈ l, r.id ≠ s.id) : l.map (fun r => if r.id = s.id then s else r) = l := by
  induction l with
  | nil => rfl
  | cons a l ih =>
    rw [List.map_cons, if_neg (h a (List.mem_cons_self a l)),
      ih (fun r hr => h r (List.mem_cons_of_mem a hr))]

/-- Overwriting a row with itself is the identity (ids nodup). -/
theorem map_update_self {l : List Snippet} {s : Snippet} (hmem : s ∈ l)
    (hnd : (l.map Snippet.id).Nodup) :
    l.map (fun r => if r.id = s.id then s else r) = l := by
  induction l with
  | nil => cases hmem
  | cons a l ih =>
    rw [List.map_cons, List.nodup_cons] at hnd
    rcases List.mem_cons.mp hmem with rfl | h'
    · rw [List.map_cons, if_pos rfl,
        map_update_of_not_mem (fun r hr he => hnd.1 (he ▸ List.mem_map_of_mem Snippet.id hr))]
    · have hne : a.id ≠ s.id := fun he =>
        hnd.1 (he ▸ List.mem_map_of_mem Snippet.id h')
      rw [List.map_cons, if_neg hne, ih h' hnd.2]

/-- A raw UPDATE writing back a row's own four fields is a no-op on the
whole store: the written row equals the old row and the versioning
trigger's firing condition fails. -/
theorem updateSnippetFields_self {db : DB} {s : Snippet}
    (hfind : findSnippet db s.id = some s)
    (hnd : (db.snippets.map Snippet.id).Nodup) :
    updateSnippetFields db s.id s.title s.content s.language s.source = db := by
  have hmem := List.mem_of_find?_eq_some hfind
  have hrow : ({ s with title := s.title, content := s.content, language := s.language, source := s.source } : Snippet) = s := rfl
  simp only [updateSnippetFields, hfind, hrow, save_snippet_version]
  rw [if_neg (by simp)]
  rw [map_update_self hmem hnd]

/-- `findTagByName` hits a member tag when tag names are nodup, and
`ensureTagExists` is then the identity. -/
theorem ensureTagExists_found {db : DB} {t : Tag} (hmem : t ∈ db.tags)
    (hnd : (db.tags.map Tag.name).Nodup) (c : Option String) :
    findTagByName db t.name = some t ∧ ensureTagExists db t.name c = db := by
  have hf : findTagByName db t.name = some t := find_key_of_mem Tag.name hmem hnd
  refine ⟨hf, ?_⟩
  simp only [ensureTagExists, hf]

/-- Under the foreign-key discipline every link of a snippet resolves, and
`linkedTags` is pointwise related to the snippet's link rows. -/
theorem linkedTags_forall₂ {db : DB}
    (hfk : ∀ l ∈ db.snippet_tags, ∃ t ∈ db.tags, t.id = l.2)
    (hndi : (db.tags.map Tag.id).Nodup) (j : Nat) :
    List.Forall₂ (fun (l : Nat × Nat) (t : Tag) => t ∈ db.tags ∧ t.id = l.2)
      (db.snippet_tags.filter (fun l => l.1 == j)) (linkedTags db j) := by
  unfold linkedTags
  refine filterMap_forall₂ ?_
  intro l hl
  obtain ⟨t, htm, hid⟩ := hfk l (List.mem_of_mem_filter hl)
  refine ⟨t, ?_, htm, hid⟩
  rw [← hid]
  exact find_key_of_mem Tag.id htm hndi

/-- The related link rows of one snippet are exactly the pairs
`(snippet, tag id)` of its linked tags. -/
theorem forall₂_links_restore {T : List Tag} {j : Nat} :
    ∀ {L : List (Nat × Nat)} {ts : List Tag},
      List.Forall₂ (fun (l : Nat × Nat) (t : Tag) => t ∈ T ∧ t.id = l.2) L ts →
      (∀ l ∈ L, l.1 = j) → L = ts.map (fun t => (j, t.id)) := by
  intro L ts hf
  induction hf with
  | nil => exact fun _ => rfl
  | @cons l t L ts hab htail ih =>
    intro hfst
    rw [List.map_cons, ← ih (fun x hx => hfst x (List.mem_cons_of_mem l hx))]
    congr 1
    exact Prod.ext (hfst l (List.mem_cons_self l L)) hab.2.symm

/-- Distinct pairs sharing a first component have distinct second
components. -/
theorem nodup_snd_of_const_fst {j : Nat} :
    ∀ {L : List (Nat × Nat)}, L.Nodup → (∀ l ∈ L, l.1 = j) → (L.map Prod.snd).Nodup := by
  intro L
  induction L with
  | nil =>
    intro _ _
    simp
  | cons l L ih =>
    intro hnd hfst
    rw [List.nodup_cons] at hnd
    rw [List.map_cons, List.nodup_cons]
    refine ⟨?_, ih hnd.2 (fun x hx => hfst x (List.mem_cons_of_mem l hx))⟩
    intro hmem
    obtain ⟨l', hl', he⟩ := List.mem_map.mp hmem
    have hll : l' = l := Prod.ext ((hfst l' (List.mem_cons_of_mem l hl')).trans
      (hfst l (List.mem_cons_self l L)).symm) he
    exact hnd.1 (hll ▸ hl')

/-- First components of the export tag pairs, before trimming. -/
theorem enum_fst_map (g : Nat × String → Option String) (ns : List String) :
    ((ns.enum.map (fun p => (jsTrim p.2, g p))).map Prod.fst) = ns.map jsTrim := by
  rw [List.map_map]
  have h1 : (Prod.fst ∘ fun p : Nat × String => (jsTrim p.2, g p)) =
      fun p : Nat × String => jsTrim p.2 := rfl
  have h2 : (fun p : Nat × String => jsTrim p.2) = jsTrim ∘ Prod.snd := rfl
  rw [h1, h2, ← List.map_map, List.enum_map_snd]

/-- Under well-behaved tag names (nonempty, comma-free, trim-invariant)
the export `tags` field carries exactly the linked tag names. -/
theorem exportTagsField_names {db : DB} (j : Nat)
    (hnames : ∀ t ∈ db.tags, jsTrim t.name = t.name ∧ t.name ≠ "" ∧ ',' ∉ t.name.data) :
    (exportTagsField db j).map Prod.fst = (linkedTags db j).map Tag.name := by
  have hsub : ∀ t ∈ linkedTags db j, t ∈ db.tags := by
    intro t ht
    obtain ⟨l, -, hf⟩ := List.mem_filterMap.mp ht
    exact List.mem_of_find?_eq_some hf
  rcases hts : linkedTags db j with _ | ⟨a, ts⟩
  · simp [exportTagsField, hts]
  · have hgood : ∀ t ∈ a :: ts, jsTrim t.name = t.name ∧ t.name ≠ "" ∧ ',' ∉ t.name.data :=
      fun t ht => hnames t (hsub t (hts ▸ ht))
    have hane := (hgood a (List.mem_cons_self a ts)).2.1
    have hsplit : jsSplit ',' (String.intercalate "," (a.name :: ts.map Tag.name)) =
        a.name :: ts.map Tag.name := by
      refine jsSplit_intercalate a.name (ts.map Tag.name)
        (hgood a (List.mem_cons_self a ts)).2.2 ?_
      intro x hx
      obtain ⟨t, ht, rfl⟩ := List.mem_map.mp hx
      exact (hgood t (List.mem_cons_of_mem a ht)).2.2
    have hnonempty : String.intercalate "," (a.name :: ts.map Tag.name) ≠ "" := by
      intro h0
      rw [h0] at hsplit
      have hemp : ([""] : List String) = a.name :: ts.map Tag.name := by
        rw [← hsplit]
        rfl
      exact hane (List.head_eq_of_cons_eq hemp.symm)
    simp only [exportTagsField, hts, List.map_cons]
    rw [if_neg (by simp), if_neg hnonempty, hsplit, enum_fst_map]
    rw [List.map_cons, (hgood a (List.mem_cons_self a ts)).1]
    congr 1
    rw [List.map_map]
    exact List.map_congr_left
      (fun t ht => (hgood t (List.mem_cons_of_mem a ht)).1)

/-- The tag loop of `importSingleSnippet`, when every incoming tag name
already names a table row: the tag table is untouched and the loop appends
exactly the corresponding links in order. -/
theorem restore_links_fold {T : List Tag} (hndn : (T.map Tag.name).Nodup) (j : Nat) :
    ∀ {tds : List TagData} {ts : List Tag},
      List.Forall₂ (fun td t => ∃ c, td = TagData.obj (some t.name) c) tds ts →
      ∀ (db0 : DB), db0.tags = T →
      (∀ t ∈ ts, t ∈ T ∧ t.name ≠ "") →
      (ts.map Tag.id).Nodup →
      (∀ t ∈ ts, (j, t.id) ∉ db0.snippet_tags) →
      (tds.foldl (importTagStep (some j)) db0).tags = T ∧
      (tds.foldl (importTagStep (some j)) db0).snippets = db0.snippets ∧
      (tds.foldl (importTagStep (some j)) db0).versions = db0.versions ∧
      (tds.foldl (importTagStep (some j)) db0).favorites = db0.favorites ∧
      (tds.foldl (importTagStep (some j)) db0).snippet_tags =
        db0.snippet_tags ++ ts.map (fun t => (j, t.id)) := by
  intro tds ts hf
  induction hf with
  | nil =>
    intro db0 hT _ _ _
    exact ⟨hT, rfl, rfl, rfl, by simp⟩
  | @cons td t tds ts hab htail ih =>
    intro db0 hT hmem hnd hnew
    obtain ⟨c, rfl⟩ := hab
    obtain ⟨htm, htne⟩ := hmem t (List.mem_cons_self t ts)
    have hstep : importTagStep (some j) db0 (TagData.obj (some t.name) c) =
        { db0 with snippet_tags := db0.snippet_tags ++ [(j, t.id)] } := by
      simp only [importTagStep]
      rw [if_pos (by simp [strTruthy, htne])]
      have hfound := ensureTagExists_found (hT ▸ htm) (hT ▸ hndn) c
      show (match findTagByName (ensureTagExists db0 t.name c) t.name with
        | some u => insertLinkOrIgnore (ensureTagExists db0 t.name c) (some j) u.id
        | none => ensureTagExists db0 t.name c) = _
      rw [hfound.2, hfound.1]
      simp only [insertLinkOrIgnore]
      rw [if_neg (hnew t (List.mem_cons_self t ts))]
    rw [List.foldl_cons, hstep]
    have hnew' : ∀ x ∈ ts, (j, x.id) ∉ db0.snippet_tags ++ [(j, t.id)] := by
      intro x hx hmx
      rcases List.mem_append.mp hmx with h1 | h2
      · exact hnew x (List.mem_cons_of_mem t hx) h1
      · have hxid : x.id = t.id := congrArg Prod.snd (List.mem_singleton.mp h2)
        exact (List.nodup_cons.mp hnd).1 (hxid ▸ List.mem_map_of_mem Tag.id hx)
    obtain ⟨i1, i2, i3, i4, i5⟩ := ih { db0 with snippet_tags := db0.snippet_tags ++ [(j, t.id)] }
      hT (fun x hx => hmem x (List.mem_cons_of_mem t hx))
      (List.nodup_cons.mp hnd).2 hnew'
    refine ⟨i1, i2, i3, i4, ?_⟩
    rw [i5]
    simp

/-- A filter keeping one key erases a filter dropping a different key. -/
theorem filter_filter_links (L : List (Nat × Nat)) {j k : Nat} (h : j ≠ k) :
    (L.filter (fun l => l.1 != k)).filter (fun l => l.1 == j) =
      L.filter (fun l => l.1 == j) := by
  rw [List.filter_filter]
  refine List.filter_congr ?_
  intro l _
  by_cases hl : l.1 = j
  · simp [hl, h]
  · simp [hl]

/-- A filter keeping a key annihilates a filter dropping the same key. -/
theorem filter_filter_links_self (L : List (Nat × Nat)) (k : Nat) :
    (L.filter (fun l => l.1 != k)).filter (fun l => l.1 == k) = [] := by
  rw [List.filter_filter]
  rw [List.filter_eq_nil_iff]
  intro l _
  by_cases hl : l.1 = k <;> simp [hl]

/-- Insertion into the created-at sort introduces no new elements. -/
theorem mem_insertDescByCreated {x s : Snippet} :
    ∀ {l : List Snippet}, x ∈ insertDescByCreated s l → x = s ∨ x ∈ l := by
  intro l
  induction l with
  | nil =>
    intro h
    exact Or.inl (List.mem_singleton.mp h)
  | cons a l ih =>
    intro h
    rw [insertDescByCreated] at h
    by_cases hc : a.created_at ≥ s.created_at
    · rw [if_pos hc] at h
      rcases List.mem_cons.mp h with rfl | h'
      · exact Or.inr (List.mem_cons_self x l)
      · rcases ih h' with h1 | h2
        · exact Or.inl h1
        · exact Or.inr (List.mem_cons_of_mem a h2)
    · rw [if_neg hc] at h
      rcases List.mem_cons.mp h with rfl | h'
      · exact Or.inl rfl
      · exact Or.inr h'

/-- The created-at sort permutes: members come from the input. -/
theorem mem_sortDescByCreated {x : Snippet} :
    ∀ {l : List Snippet}, x ∈ sortDescByCreated l → x ∈ l := by
  intro l
  induction l with
  | nil => exact fun h => h
  | cons a l ih =>
    intro h
    rcases mem_insertDescByCreated (l := sortDescByCreated l) h with rfl | h'
    · exact List.mem_cons_self x l
    · exact List.mem_cons_of_mem a (ih h')

/-- The duplicate probe hits a member when (title, content) pairs are
nodup. -/
theorem find_pair_of_mem {l : List Snippet} {x : Snippet} (hmem : x ∈ l)
    (hnd : (l.map (fun s => (s.title, s.content))).Nodup) :
    l.find? (fun y => y.title == x.title && y.content == x.content) = some x := by
  induction l with
  | nil => cases hmem
  | cons a l ih =>
    rw [List.map_cons, List.nodup_cons] at hnd
    rcases List.mem_cons.mp hmem with rfl | h'
    · exact List.find?_cons_of_pos l (by simp)
    · refine (List.find?_cons_of_neg l ?_).trans (ih h' hnd.2)
      intro hpos
      rw [Bool.and_eq_true, beq_iff_eq, beq_iff_eq] at hpos
      refine hnd.1 ?_
      have hpe : (a.title, a.content) = (x.title, x.content) := by
        rw [hpos.1, hpos.2]
      rw [hpe]
      exact List.mem_map_of_mem _ h'

/-- One round-trip import record, replayed with `overwriteExisting` against
a store whose snippet/tag/favorite tables match the exporting store: the
snippet is found and overwritten with its own values, its links are
deleted and re-inserted unchanged, and nothing else moves. -/
theorem roundtrip_single (db : DB) {db1 : DB} (q : Snippet) {r : ImportRecord}
    (hq : q ∈ db.snippets)
    (hids : (db.snippets.map Snippet.id).Nodup)
    (hpairs : (db.snippets.map (fun s => (s.title, s.content))).Nodup)
    (htitle : q.title ≠ "") (hcontent : q.content ≠ "")
    (hlang : q.language ≠ "") (hsrc : q.source ≠ some "")
    (htagids : (db.tags.map Tag.id).Nodup) (htagnames : (db.tags.map Tag.name).Nodup)
    (hnames : ∀ t ∈ db.tags, jsTrim t.name = t.name ∧ t.name ≠ "" ∧ ',' ∉ t.name.data)
    (hlinks : db.snippet_tags.Nodup)
    (hfk : ∀ l ∈ db.snippet_tags, ∃ t ∈ db.tags, t.id = l.2)
    (hr : r = ⟨some q.title, some q.content, some q.language, q.source,
      some ((exportTagsField db q.id).map (fun p => TagData.obj (some p.1) p.2)),
      db.favorites.contains q.id⟩)
    (h1 : db1.snippets = db.snippets) (h2 : db1.tags = db.tags)
    (h3 : db1.favorites = db.favorites)
    (h4 : ∀ j : Nat, db1.snippet_tags.filter (fun l => l.1 == j) =
      db.snippet_tags.filter (fun l => l.1 == j)) :
    ∃ db2, importSingleSnippet db1 r ⟨true, false, false⟩ = .ok (db2, some q.id) ∧
      db2.snippets = db.snippets ∧ db2.tags = db.tags ∧ db2.favorites = db.favorites ∧
      (∀ j : Nat, db2.snippet_tags.filter (fun l => l.1 == j) =
        db.snippet_tags.filter (fun l => l.1 == j)) := by
  subst hr
  have ht : strTruthy (some q.title) = true := by simp [strTruthy, htitle]
  have hc : strTruthy (some q.content) = true := by simp [strTruthy, hcontent]
  have hfindq : findSnippet db1 q.id = some q :=
    (findSnippet_congr h1 q.id).trans (find_key_of_mem Snippet.id hq hids)
  have hfindpair : findSnippetByTitleContent db1 q.title q.content = some q :=
    (findPair_congr h1 q.title q.content).trans (find_pair_of_mem hq hpairs)
  have hnd1 : (db1.snippets.map Snippet.id).Nodup := by
    rw [h1]
    exact hids
  have hupd : updateSnippetFields db1 q.id q.title q.content q.language q.source = db1 :=
    updateSnippetFields_self hfindq hnd1
  have hlp : jsLangOrPlaintext (some q.language) = q.language := jsLangOrPlaintext_of_ne hlang
  have hsn : jsOrNullStr q.source = q.source := jsOrNullStr_of_ne hsrc
  have hsub : ∀ t ∈ linkedTags db q.id, t ∈ db.tags := by
    intro t htl
    obtain ⟨l, -, hfl⟩ := List.mem_filterMap.mp htl
    exact List.mem_of_find?_eq_some hfl
  have hF1 := linkedTags_forall₂ hfk htagids q.id
  have hF2 := forall₂_of_map_eq (exportTagsField_names q.id hnames)
  have hF3 : List.Forall₂ (fun td t => ∃ c, td = TagData.obj (some t.name) c)
      ((exportTagsField db q.id).map (fun p => TagData.obj (some p.1) p.2))
      (linkedTags db q.id) :=
    List.forall₂_map_left_iff.mpr (hF2.imp (fun p t hp => ⟨p.2, by rw [hp]⟩))
  have hLfst : ∀ l ∈ db.snippet_tags.filter (fun l => l.1 == q.id), l.1 = q.id := by
    intro l hl
    have hb := (List.mem_filter.mp hl).2
    simpa using hb
  have hLnd : (db.snippet_tags.filter (fun l => l.1 == q.id)).Nodup := hlinks.filter _
  have hndids : ((linkedTags db q.id).map Tag.id).Nodup := by
    have hmapeq : (db.snippet_tags.filter (fun l => l.1 == q.id)).map Prod.snd =
        (linkedTags db q.id).map Tag.id :=
      map_eq_of_forall₂ (fun l t hrel => hrel.2.symm) hF1
    rw [← hmapeq]
    exact nodup_snd_of_const_fst hLnd hLfst
  have hnew : ∀ t ∈ linkedTags db q.id,
      (q.id, t.id) ∉ (deleteLinksFor db1 (some q.id)).snippet_tags := by
    intro t _ hmx
    have hb := (List.mem_filter.mp hmx).2
    simp at hb
  obtain ⟨r1, r2, r3, r4, r5⟩ := restore_links_fold htagnames q.id hF3
    (deleteLinksFor db1 (some q.id)) h2
    (fun t htl => ⟨hsub t htl, (hnames t (hsub t htl)).2.1⟩) hndids hnew
  have hlinkinv : ∀ j : Nat,
      (db1.snippet_tags.filter (fun l => l.1 != q.id) ++
        (linkedTags db q.id).map (fun t => (q.id, t.id))).filter (fun l => l.1 == j) =
      db.snippet_tags.filter (fun l => l.1 == j) := by
    intro j
    rw [List.filter_append]
    by_cases hj : j = q.id
    · subst hj
      rw [filter_filter_links_self, List.nil_append]
      have happ : ((linkedTags db q.id).map (fun t => (q.id, t.id))).filter
          (fun l => l.1 == q.id) = (linkedTags db q.id).map (fun t => (q.id, t.id)) := by
        rw [List.filter_eq_self]
        intro a ha
        obtain ⟨t, -, rfl⟩ := List.mem_map.mp ha
        simp
      rw [happ, ← forall₂_links_restore hF1 hLfst]
    · rw [filter_filter_links _ hj, h4 j]
      have hz : ((linkedTags db q.id).map (fun t => (q.id, t.id))).filter
          (fun l => l.1 == j) = [] := by
        rw [List.filter_eq_nil_iff]
        intro a ha
        obtain ⟨t, -, rfl⟩ := List.mem_map.mp ha
        simp only [beq_iff_eq]
        exact fun he => hj he.symm
      rw [hz, List.append_nil]
  refine ⟨((exportTagsField db q.id).map (fun p => TagData.obj (some p.1) p.2)).foldl
    (importTagStep (some q.id)) (deleteLinksFor db1 (some q.id)), ?_, r2.trans h1, r1,
    r4.trans h3, ?_⟩
  · simp only [importSingleSnippet, ht, hc, hfindpair, Option.getD_some, Bool.not_true,
      Bool.or_self, Bool.and_false, Bool.false_and, Bool.and_true, Bool.true_and,
      Option.isSome_some, Bool.not_false, Bool.false_eq_true, if_false, if_true, hlp, hsn, hupd]
    cases hfav : db.favorites.contains q.id with
    | true =>
      have hins : insertFavoriteOrIgnore (((exportTagsField db q.id).map
          (fun p => TagData.obj (some p.1) p.2)).foldl (importTagStep (some q.id))
          (deleteLinksFor db1 (some q.id))) (some q.id) =
          ((exportTagsField db q.id).map (fun p => TagData.obj (some p.1) p.2)).foldl
          (importTagStep (some q.id)) (deleteLinksFor db1 (some q.id)) := by
        simp only [insertFavoriteOrIgnore]
        rw [if_pos]
        rw [r4]
        show q.id ∈ db1.favorites
        rw [h3]
        simpa using hfav
      rw [if_pos rfl, hins]
    | false =>
      have hdel : deleteFavorite (((exportTagsField db q.id).map
          (fun p => TagData.obj (some p.1) p.2)).foldl (importTagStep (some q.id))
          (deleteLinksFor db1 (some q.id))) (some q.id) =
          ((exportTagsField db q.id).map (fun p => TagData.obj (some p.1) p.2)).foldl
          (importTagStep (some q.id)) (deleteLinksFor db1 (some q.id)) := by
        simp only [deleteFavorite]
        have hnf : q.id ∉ db.favorites := by simpa using hfav
        have hff : (((exportTagsField db q.id).map (fun p => TagData.obj (some p.1) p.2)).foldl
            (importTagStep (some q.id)) (deleteLinksFor db1 (some q.id))).favorites.filter
            (fun f => f != q.id) =
            (((exportTagsField db q.id).map (fun p => TagData.obj (some p.1) p.2)).foldl
            (importTagStep (some q.id)) (deleteLinksFor db1 (some q.id))).favorites := by
          rw [List.filter_eq_self]
          intro f hf
          have hdf : (deleteLinksFor db1 (some q.id)).favorites = db1.favorites := rfl
          rw [r4, hdf, h3] at hf
          simp only [bne_iff_ne, ne_eq]
          exact fun he => hnf (he ▸ hf)
        rw [hff]
      rw [if_neg (by simp), hdel]
  · intro j
    rw [r5]
    exact hlinkinv j

/-- Folding round-trip records through the import loop preserves the
snippet, tag and favorite tables and every snippet's link rows. -/
theorem roundtrip_fold (db : DB)
    (hids : (db.snippets.map Snippet.id).Nodup)
    (hpairs : (db.snippets.map (fun s => (s.title, s.content))).Nodup)
    (hfields : ∀ s ∈ db.snippets, s.title ≠ "" ∧ s.content ≠ "" ∧ s.language ≠ "" ∧
      s.source ≠ some "")
    (htagids : (db.tags.map Tag.id).Nodup) (htagnames : (db.tags.map Tag.name).Nodup)
    (hnames : ∀ t ∈ db.tags, jsTrim t.name = t.name ∧ t.name ≠ "" ∧ ',' ∉ t.name.data)
    (hlinks : db.snippet_tags.Nodup)
    (hfk : ∀ l ∈ db.snippet_tags, ∃ t ∈ db.tags, t.id = l.2) :
    ∀ (rs : List ImportRecord) (db1 : DB) (res : ImportResults),
      (∀ r ∈ rs, ∃ q ∈ db.snippets, r =
        (⟨some q.title, some q.content, some q.language, q.source,
          some ((exportTagsField db q.id).map (fun p => TagData.obj (some p.1) p.2)),
          db.favorites.contains q.id⟩ : ImportRecord)) →
      db1.snippets = db.snippets → db1.tags = db.tags → db1.favorites = db.favorites →
      (∀ j : Nat, db1.snippet_tags.filter (fun l => l.1 == j) =
        db.snippet_tags.filter (fun l => l.1 == j)) →
      ((rs.foldl (importStep ⟨true, false, false⟩) (db1, res)).1.snippets = db.snippets ∧
       (rs.foldl (importStep ⟨true, false, false⟩) (db1, res)).1.tags = db.tags ∧
       (rs.foldl (importStep ⟨true, false, false⟩) (db1, res)).1.favorites = db.favorites ∧
       ∀ j : Nat, (rs.foldl (importStep ⟨true, false, false⟩)
         (db1, res)).1.snippet_tags.filter (fun l => l.1 == j) =
         db.snippet_tags.filter (fun l => l.1 == j)) := by
  intro rs
  induction rs with
  | nil => exact fun db1 res _ a b c d => ⟨a, b, c, d⟩
  | cons r rs ih =>
    intro db1 res hrec ha hb hc hd
    obtain ⟨q, hqm, rfl⟩ := hrec r (List.mem_cons_self r rs)
    obtain ⟨ht, hcn, hl, hs⟩ := hfields q hqm
    obtain ⟨db2, hok, j1, j2, j3, j4⟩ := roundtrip_single db q hqm hids hpairs ht hcn hl hs
      htagids htagnames hnames hlinks hfk rfl ha hb hc hd
    rw [List.foldl_cons]
    have hstep1 : importStep ⟨true, false, false⟩ (db1, res)
        (⟨some q.title, some q.content, some q.language, q.source,
          some ((exportTagsField db q.id).map (fun p => TagData.obj (some p.1) p.2)),
          db.favorites.contains q.id⟩ : ImportRecord) =
        (db2, { res with success := res.success + 1, details := res.details ++ [importDetailOk (some q.title)] }) := by
      simp only [importStep, hok]
    rw [hstep1]
    exact ih db2 _ (fun x hx => hrec x (List.mem_cons_of_mem _ hx)) j1 j2 j3 j4

/-- C7 counterexample: the round trip does not preserve tag sets. In the
store `exDbComma` the single snippet carries the one tag `"a,b"`; exporting
joins tag names with commas and re-splits them, so importing the export
with `{overwriteExisting := true, skipDuplicates := false}` leaves the
snippet linked to the two tags `"a"` and `"b"` instead. -/
theorem export_import_roundtrip_counterexample :
    (linkedTags exDbComma 1).map Tag.name = ["a,b"] ∧
    (linkedTags ((importFromJSON exDbComma (exportDocToImportDoc (exportToJSON exDbComma []))
      ⟨true, false, false⟩).1) 1).map Tag.name = ["a", "b"] ∧
    ¬ ((linkedTags ((importFromJSON exDbComma (exportDocToImportDoc (exportToJSON exDbComma []))
      ⟨true, false, false⟩).1) 1).map Tag.name = (linkedTags exDbComma 1).map Tag.name) := by
  refine ⟨by decide, by decide, by decide⟩

/-- C7 (amended): importing the export of all snippets with
`{overwriteExisting := true, skipDuplicates := false}` leaves the snippet
table (hence the total count and every title, content and language), the
tag table, the favorites table and every snippet's linked tag list
unchanged — provided snippet ids and (title, content) pairs are distinct,
titles, contents and languages are nonempty, sources are never the empty
string, tag ids and names are distinct, tag names are nonempty, comma-free
and trim-invariant, and link rows are distinct and reference existing
tags. -/
theorem export_import_roundtrip (db : DB)
    (hids : (db.snippets.map Snippet.id).Nodup)
    (hpairs : (db.snippets.map (fun s => (s.title, s.content))).Nodup)
    (hfields : ∀ s ∈ db.snippets, s.title ≠ "" ∧ s.content ≠ "" ∧ s.language ≠ "" ∧
      s.source ≠ some "")
    (htagids : (db.tags.map Tag.id).Nodup) (htagnames : (db.tags.map Tag.name).Nodup)
    (hnames : ∀ t ∈ db.tags, jsTrim t.name = t.name ∧ t.name ≠ "" ∧ ',' ∉ t.name.data)
    (hlinks : db.snippet_tags.Nodup)
    (hfk : ∀ l ∈ db.snippet_tags, ∃ t ∈ db.tags, t.id = l.2) :
    ((importFromJSON db (exportDocToImportDoc (exportToJSON db []))
        ⟨true, false, false⟩).1.snippets = db.snippets) ∧
    ((importFromJSON db (exportDocToImportDoc (exportToJSON db []))
        ⟨true, false, false⟩).1.tags = db.tags) ∧
    ((importFromJSON db (exportDocToImportDoc (exportToJSON db []))
        ⟨true, false, false⟩).1.favorites = db.favorites) ∧
    (∀ j : Nat, linkedTags (importFromJSON db (exportDocToImportDoc (exportToJSON db []))
        ⟨true, false, false⟩).1 j = linkedTags db j) := by
  have hsnips : (exportToJSON db []).snippets = (sortDescByCreated db.snippets).map (fun s =>
      (⟨s.id, s.title, s.content, s.language, s.source, s.version, s.created_at,
        db.favorites.contains s.id, exportTagsField db s.id⟩ : ExportRecord)) := rfl
  have hrec : ∀ r ∈ (exportToJSON db []).snippets.map exportRecordToImportRecord,
      ∃ q ∈ db.snippets, r =
        (⟨some q.title, some q.content, some q.language, q.source,
          some ((exportTagsField db q.id).map (fun p => TagData.obj (some p.1) p.2)),
          db.favorites.contains q.id⟩ : ImportRecord) := by
    intro r hr
    rw [List.mem_map] at hr
    obtain ⟨rec, hrecm, rfl⟩ := hr
    rw [hsnips, List.mem_map] at hrecm
    obtain ⟨q, hqm, rfl⟩ := hrecm
    exact ⟨q, mem_sortDescByCreated hqm, rfl⟩
  obtain ⟨hA, hB, hC, hD⟩ := roundtrip_fold db hids hpairs hfields htagids htagnames hnames
    hlinks hfk ((exportToJSON db []).snippets.map exportRecordToImportRecord) db emptyResults
    hrec rfl rfl rfl (fun j => rfl)
  have hred : (importFromJSON db (exportDocToImportDoc (exportToJSON db []))
      ⟨true, false, false⟩).1 =
      (((exportToJSON db []).snippets.map exportRecordToImportRecord).foldl
        (importStep ⟨true, false, false⟩) (db, emptyResults)).1 := rfl
  rw [hred]
  refine ⟨hA, hB, hC, ?_⟩
  intro j
  unfold linkedTags
  rw [hD j, hB]

/-- Witness for the amended C7 on a store with one snippet `"T"`/`"c"`
tagged `"util"`: the round trip returns the snippet, tag and favorite
tables and the snippet's linked tags unchanged. -/
theorem export_import_roundtrip_witness :
    ((importFromJSON exDbTag (exportDocToImportDoc (exportToJSON exDbTag []))
        ⟨true, false, false⟩).1.snippets = exDbTag.snippets) ∧
    linkedTags (importFromJSON exDbTag (exportDocToImportDoc (exportToJSON exDbTag []))
        ⟨true, false, false⟩).1 1 = linkedTags exDbTag 1 := by
  have h := export_import_roundtrip exDbTag (by decide) (by decide) (by decide) (by decide)
    (by decide) (by decide) (by decide) (by decide)
  exact ⟨h.1, h.2.2.2 1⟩

end MySnippetHub
